import Mathlib

/-!
# Kammerl finder: highlight boxes, camera transition, keyboard movement

A shallow embedding of `src/main.js` and the properties its specification
states about it.

Modelling choices:

* JavaScript numbers are rationals. Where a property does not depend on how
  results are rounded (component shuffles, the scene, the key state, which
  assignments overwrite which), the arithmetic is written exactly. Where it
  does (the ease curve, the accumulated elapsed time, the scale offset), the
  functions are written a second time in the namespace `F64`, every operation
  followed by `f64`, the rounding of IEEE binary64: 53 significant bits, ties
  to even, gradual underflow below `2^(-1022)`. Overflow to an infinity (from
  `2^1024` on) and NaN are outside the model; theorems whose inputs could reach
  that range assume magnitudes of at most `2^1000`.
* `Math.sqrt`, which `THREE.Vector3.length` calls, has no exact rational
  counterpart and is taken as a parameter `sqrt : ℚ → ℚ`.
* The three.js vector operations that `main.js` calls (`subVectors`,
  `addScaledVector`, `lerpVectors`, `crossVectors`, `normalize`) are written out
  with the arithmetic three.js performs.
* `toLowerCase` maps the letters `A` to `Z` only; no other character
  lowercases to one of `w`, `a`, `s`, `d`.
* `controls.update()` and `renderer.render(...)` are calls into the rendering
  library; the model covers the assignments `main.js` itself makes.
* The mutable module-level variables (`loadedBoxes`, `highlightBox`,
  `cameraTransition`, `keys`, `lastTime`, the scene and the camera) are the
  fields of one explicit state record.
-/

namespace KammerlFinder

/-! ## Vectors -/

/-- The `THREE.Vector3` value: three numeric components. -/
structure Vector3 where
  x : ℚ
  y : ℚ
  z : ℚ
deriving DecidableEq, Repr

namespace Vector3

/-- The method `subVectors(a, b)`: componentwise difference. -/
def subVectors (a b : Vector3) : Vector3 :=
  ⟨a.x - b.x, a.y - b.y, a.z - b.z⟩

/-- The method `v.addScaledVector(d, s)`: `v + d * s`, componentwise. -/
def addScaledVector (v d : Vector3) (s : ℚ) : Vector3 :=
  ⟨v.x + d.x * s, v.y + d.y * s, v.z + d.z * s⟩

/-- The method `lerpVectors(v1, v2, alpha)`: `v1 + (v2 - v1) * alpha`, componentwise. -/
def lerpVectors (v1 v2 : Vector3) (alpha : ℚ) : Vector3 :=
  ⟨v1.x + (v2.x - v1.x) * alpha, v1.y + (v2.y - v1.y) * alpha, v1.z + (v2.z - v1.z) * alpha⟩

/-- The method `crossVectors(a, b)`: the cross product of `a` and `b`. -/
def crossVectors (a b : Vector3) : Vector3 :=
  ⟨a.y * b.z - a.z * b.y, a.z * b.x - a.x * b.z, a.x * b.y - a.y * b.x⟩

/-- The method `v.lengthSq()`: sum of the squared components. -/
def lengthSq (v : Vector3) : ℚ :=
  v.x * v.x + v.y * v.y + v.z * v.z

/-- The method `v.length()`, which is `Math.sqrt(v.lengthSq())`. -/
def length (sqrt : ℚ → ℚ) (v : Vector3) : ℚ :=
  sqrt v.lengthSq

/-- The method `v.multiplyScalar(s)`. -/
def multiplyScalar (v : Vector3) (s : ℚ) : Vector3 :=
  ⟨v.x * s, v.y * s, v.z * s⟩

/-- The method `v.divideScalar(s)`, which three.js computes as `v.multiplyScalar(1 / s)`. -/
def divideScalar (v : Vector3) (s : ℚ) : Vector3 :=
  v.multiplyScalar (1 / s)

/-- The method `v.normalize()`, which three.js computes as `v.divideScalar(v.length() || 1)`:
a zero length is replaced by 1, so the zero vector stays the zero vector. -/
def normalize (sqrt : ℚ → ℚ) (v : Vector3) : Vector3 :=
  v.divideScalar (if v.length sqrt = 0 then 1 else v.length sqrt)

/-- Squared distance between two points. -/
def distanceToSquared (a b : Vector3) : ℚ :=
  (subVectors a b).lengthSq

end Vector3

/-! ## Data model -/

/-- One entry of `boxCoords.json`: three-component arrays in Blender axes. -/
structure BoxRecord where
  boxId : String
  content : Option String
  location : Fin 3 → ℚ
  scale : Fin 3 → ℚ
  rotation : Fin 3 → ℚ

/-- The `THREE.Euler` angles of a mesh rotation. -/
structure Euler where
  x : ℚ
  y : ℚ
  z : ℚ
deriving DecidableEq, Repr

/-- The transform of the mesh that `createHighlightBox` builds. -/
structure Mesh where
  scale : Vector3
  position : Vector3
  rotation : Euler
deriving DecidableEq, Repr

/-- The record held in `cameraTransition` while an animation is in flight. -/
structure CameraTransition where
  fromPos : Vector3
  toPos : Vector3
  fromTarget : Vector3
  toTarget : Vector3
  duration : ℚ
  elapsed : ℚ
deriving DecidableEq, Repr

/-- The `keys` object. -/
structure Keys where
  w : Bool
  a : Bool
  s : Bool
  d : Bool
deriving DecidableEq, Repr

/-- What the key listeners read from a keyboard event. -/
structure KeyboardEvent where
  targetTagName : String
  key : String
deriving DecidableEq, Repr

/-- The perspective camera: its position, its up vector, and the vector that
`camera.getWorldDirection` returns for its current orientation. -/
structure Camera where
  position : Vector3
  up : Vector3
  worldDirection : Vector3
deriving DecidableEq, Repr

/-- A child of the scene. A highlight mesh carries the identity of the object
that was allocated for it, so that `scene.remove` can find that object. -/
inductive SceneChild where
  | directionalLight
  | ambientLight
  | highlight (id : Nat) (mesh : Mesh)
deriving DecidableEq, Repr

/-- The module-level state of `main.js`: the children of `scene`, the number of
meshes allocated so far, `loadedBoxes`, `highlightBox`, the options of the box
select, `cameraTransition`, `camera`, `controls.target`, `keys` and `lastTime`. -/
structure AppState where
  scene : List SceneChild
  allocated : Nat
  loadedBoxes : List BoxRecord
  highlightBox : Option (Nat × Mesh)
  selectOptions : List (String × String)
  cameraTransition : Option CameraTransition
  camera : Camera
  controlsTarget : Vector3
  keys : Keys
  lastTime : ℚ

/-! ## Highlight box (lines 59-94) -/

/-- The function `createHighlightBox(boxData)`: Blender coordinates to three.js coordinates. -/
def createHighlightBox (boxData : BoxRecord) : Mesh :=
  let position : Fin 3 → ℚ :=
    ![boxData.location 0, boxData.location 2, -boxData.location 1]
  let scaleVal : ℚ := 2
  let scale : Fin 3 → ℚ :=
    ![boxData.scale 0 * scaleVal, boxData.scale 2 * scaleVal + 0.05, boxData.scale 1 * scaleVal]
  let rotation : Fin 3 → ℚ :=
    ![boxData.rotation 0, boxData.rotation 2, boxData.rotation 1]
  { scale := ⟨scale 0, scale 1, scale 2⟩
    position := ⟨position 0, position 1, position 2⟩
    rotation := ⟨rotation 0, rotation 1, rotation 2⟩ }

/-! ## Scene bookkeeping -/

/-- The identity of a scene child, when it is a highlight mesh. -/
def SceneChild.highlightId : SceneChild → Option Nat
  | .highlight id _ => some id
  | _ => none

/-- The call `scene.remove(obj)` for a highlight mesh: the child with that identity is
spliced out of the children, when it is there. -/
def sceneRemove (scene : List SceneChild) (id : Nat) : List SceneChild :=
  scene.eraseP (fun c => c.highlightId == some id)

/-- The call `scene.add(obj)`: the object is appended to the children. -/
def sceneAdd (scene : List SceneChild) (c : SceneChild) : List SceneChild :=
  scene ++ [c]

/-- The two statements `if (highlightBox) scene.remove(highlightBox);`. -/
def removeCurrentHighlight (s : AppState) : AppState :=
  match s.highlightBox with
  | some h => { s with scene := sceneRemove s.scene h.1 }
  | none => s

/-- The two statements `highlightBox = createHighlightBox(box); scene.add(highlightBox);`,
the new mesh getting a fresh identity. -/
def showHighlight (box : BoxRecord) (s : AppState) : AppState :=
  let mesh := createHighlightBox box
  { s with
    allocated := s.allocated + 1
    highlightBox := some (s.allocated, mesh)
    scene := sceneAdd s.scene (.highlight s.allocated mesh) }

/-- Number of highlight meshes among the children of the scene. -/
def highlightCount (s : AppState) : Nat :=
  s.scene.countP (fun c => c.highlightId.isSome)

/-! ## Box data load (lines 97-117) -/

/-- The label `box.content || box.boxId`: an absent or empty content falls back to the id. -/
def optionLabel (box : BoxRecord) : String :=
  match box.content with
  | some c => if c = "" then box.boxId else c
  | none => box.boxId

/-- The `then` handler of `fetch('boxCoords.json')`, run with `data.boxes`.
The select element gets one option (value, label) per box; which option it
shows as selected is kept by the element and not recorded in the state. -/
def onBoxesLoaded (boxes : List BoxRecord) (s : AppState) : AppState :=
  let s := { s with
    loadedBoxes := boxes
    selectOptions := boxes.map (fun box => (box.boxId, optionLabel box)) }
  match boxes with
  | [] => s
  | first :: _ => showHighlight first (removeCurrentHighlight s)

/-! ## Camera transition (lines 120-145, 225-241) -/

/-- The function `smoothLookAt(targetPos)` (lines 126-145). -/
def smoothLookAt (sqrt : ℚ → ℚ) (targetPos : Vector3) (s : AppState) : AppState :=
  let sceneCenter : Vector3 := ⟨0, 0, 0⟩
  let direction := (Vector3.subVectors targetPos sceneCenter).normalize sqrt
  let fixedDistance : ℚ := 2.5
  let newCamPos := targetPos.addScaledVector direction (-fixedDistance)
  { s with
    cameraTransition := some
      { fromPos := s.camera.position
        toPos := newCamPos
        fromTarget := s.controlsTarget
        toTarget := targetPos
        duration := 0.7
        elapsed := 0 } }

/-- The `change` listener of the box select (lines 148-163). -/
def onSelectChange (sqrt : ℚ → ℚ) (selectedId : String) (s : AppState) : AppState :=
  match s.loadedBoxes.find? (fun b => b.boxId == selectedId) with
  | none => s
  | some boxData =>
    let s := showHighlight boxData (removeCurrentHighlight s)
    let boxPos : Vector3 :=
      ⟨boxData.location 0, boxData.location 2, -boxData.location 1⟩
    smoothLookAt sqrt boxPos s

/-- The ease-in-out curve of lines 230-232, as a function of the progress `t`. -/
def ease (t : ℚ) : ℚ :=
  if t < 0.5 then 2 * t * t else -1 + (4 - 2 * t) * t

/-- The `if (cameraTransition) { ... }` block of `animate` (lines 225-241),
without the call to `controls.update()`. Every transition that `smoothLookAt`
creates has duration 0.7; the quotient by a zero duration is not modelled. -/
def transitionStep (delta : ℚ) (s : AppState) : AppState :=
  match s.cameraTransition with
  | none => s
  | some tr =>
    let tr := { tr with elapsed := tr.elapsed + delta }
    let t := min (tr.elapsed / tr.duration) 1
    let e := ease t
    let s := { s with
      cameraTransition := some tr
      camera := { s.camera with position := Vector3.lerpVectors tr.fromPos tr.toPos e }
      controlsTarget := Vector3.lerpVectors tr.fromTarget tr.toTarget e }
    if t ≥ 1 then
      { s with
        camera := { s.camera with position := tr.toPos }
        controlsTarget := tr.toTarget
        cameraTransition := none }
    else s

/-! ## Keyboard (lines 178-214) -/

/-- The constant `moveSpeed`. -/
def moveSpeed : ℚ := 0.05

/-- The assignment `keys[k] = v` for `k` one of the four movement keys. -/
def Keys.set (keys : Keys) (k : String) (v : Bool) : Keys :=
  if k = "w" then { keys with w := v }
  else if k = "a" then { keys with a := v }
  else if k = "s" then { keys with s := v }
  else if k = "d" then { keys with d := v }
  else keys

/-- The method `k.toLowerCase()`, character by character. Only the letters `A` to `Z` are
mapped; no other character lowercases to `w`, `a`, `s` or `d`. -/
def toLowerCase (k : String) : String :=
  String.mk (k.data.map Char.toLower)

/-- The `keydown` listener (lines 182-187). -/
def keydown (e : KeyboardEvent) (keys : Keys) : Keys :=
  if ["INPUT", "SELECT", "TEXTAREA"].contains e.targetTagName then keys
  else if ["w", "a", "s", "d"].contains (toLowerCase e.key) then
    keys.set (toLowerCase e.key) true
  else keys

/-- The `keyup` listener (lines 190-194). -/
def keyup (e : KeyboardEvent) (keys : Keys) : Keys :=
  if ["w", "a", "s", "d"].contains (toLowerCase e.key) then
    keys.set (toLowerCase e.key) false
  else keys

/-- The function `updateCameraMovement()` (lines 199-214). -/
def updateCameraMovement (sqrt : ℚ → ℚ) (s : AppState) : AppState :=
  let direction := s.camera.worldDirection
  let direction := { direction with y := 0 }
  let direction := direction.normalize sqrt
  let right := (Vector3.crossVectors s.camera.up direction).normalize sqrt
  let p := s.camera.position
  let p := if s.keys.w then p.addScaledVector direction moveSpeed else p
  let p := if s.keys.s then p.addScaledVector direction (-moveSpeed) else p
  let p := if s.keys.a then p.addScaledVector right moveSpeed else p
  let p := if s.keys.d then p.addScaledVector right (-moveSpeed) else p
  { s with camera := { s.camera with position := p } }

/-! ## Frame loop (lines 217-249) -/

/-- One call of `animate(now)`, up to the library calls. -/
def animate (sqrt : ℚ → ℚ) (now : ℚ) (s : AppState) : AppState :=
  let delta := (now - s.lastTime) / 1000
  let s := { s with lastTime := now }
  let s := updateCameraMovement sqrt s
  transitionStep delta s

/-! ## Events -/

/-- The state after the top-level statements of `main.js` have run, before any
callback; `startTime` is the value of `performance.now()` at line 217. -/
def initialState (startTime : ℚ) : AppState :=
  { scene := [.directionalLight, .ambientLight]
    allocated := 0
    loadedBoxes := []
    highlightBox := none
    selectOptions := []
    cameraTransition := none
    camera := { position := ⟨0, 0, 1⟩, up := ⟨0, 1, 0⟩, worldDirection := ⟨0, 0, -1⟩ }
    controlsTarget := ⟨0, 0, 0⟩
    keys := ⟨false, false, false, false⟩
    lastTime := startTime }

/-- A transition from the initial camera towards `(6,0,8)`, not yet advanced. -/
def sampleTransition : CameraTransition :=
  { fromPos := ⟨0, 0, 1⟩
    toPos := ⟨3, 0, 4⟩
    fromTarget := ⟨0, 0, 0⟩
    toTarget := ⟨6, 0, 8⟩
    duration := 0.7
    elapsed := 0 }

/-- The initial state with `sampleTransition` in flight. -/
def sampleAnimating : AppState :=
  { initialState 0 with cameraTransition := some sampleTransition }

/-- The callbacks that touch the highlight box. -/
inductive Event where
  | boxesLoaded (boxes : List BoxRecord)
  | selectChange (selectedId : String)

/-- One callback. -/
def step (sqrt : ℚ → ℚ) (s : AppState) : Event → AppState
  | .boxesLoaded boxes => onBoxesLoaded boxes s
  | .selectChange selectedId => onSelectChange sqrt selectedId s

/-- A sequence of callbacks, in order. -/
def run (sqrt : ℚ → ℚ) (s : AppState) (events : List Event) : AppState :=
  events.foldl (step sqrt) s

/-- Whether the event is a load completion that delivers at least one box. -/
def Event.deliversBox : Event → Bool
  | .boxesLoaded boxes => !boxes.isEmpty
  | .selectChange _ => false

/-- Whether the event is a load completion. -/
def Event.isLoad : Event → Bool
  | .boxesLoaded _ => true
  | .selectChange _ => false

/-- The children of the scene in terms of the `highlightBox` variable: the two
lights, then the current highlight mesh when there is one. -/
def sceneOf (h : Option (Nat × Mesh)) : List SceneChild :=
  match h with
  | none => [.directionalLight, .ambientLight]
  | some hb => [.directionalLight, .ambientLight, .highlight hb.1 hb.2]

/-- The scene holds exactly the mesh `highlightBox` refers to, and a box list
that is not empty comes with a highlight. -/
def Consistent (s : AppState) : Prop :=
  s.scene = sceneOf s.highlightBox ∧ (s.loadedBoxes ≠ [] → s.highlightBox.isSome)

/-- A stand-in for `Math.sqrt` on concrete inputs: the rational square root,
exact on squares of rationals. -/
def sampleSqrt : ℚ → ℚ := Rat.sqrt

/-- The inverse mapping the specification describes for the coordinate
conversion: location `(px, -pz, py)`, scale `(sx/2, sz/2, (sy - 0.05)/2)` and
rotation `(r0, r2, r1)` of a mesh transform. -/
def blenderOfMesh (m : Mesh) : (Fin 3 → ℚ) × (Fin 3 → ℚ) × (Fin 3 → ℚ) :=
  (![m.position.x, -m.position.z, m.position.y],
   ![m.scale.x / 2, m.scale.z / 2, (m.scale.y - 0.05) / 2],
   ![m.rotation.x, m.rotation.z, m.rotation.y])

/-! ## Double-precision arithmetic -/

/-- Nearest integer, a tie going to the even neighbour. -/
def roundHalfEven (x : ℚ) : ℤ :=
  if x - ⌊x⌋ < 1 / 2 then ⌊x⌋
  else if 1 / 2 < x - ⌊x⌋ then ⌊x⌋ + 1
  else if ⌊x⌋ % 2 = 0 then ⌊x⌋
  else ⌊x⌋ + 1

/-- The binary exponent that fixes the spacing of the doubles around `x`:
`⌊log₂ |x|⌋`, and `-1022` for zero and for the subnormal range. -/
def binade (x : ℚ) : ℤ :=
  if x = 0 then -1022 else max (Int.log 2 |x|) (-1022)

/-- The double nearest to `x`: `x` rounded to a multiple of `2^(binade x - 52)`,
ties to even. Every JavaScript arithmetic operation returns `f64` of its exact
result, and a decimal literal denotes `f64` of its value. -/
def f64 (x : ℚ) : ℚ :=
  roundHalfEven (x / 2 ^ (binade x - 52)) * 2 ^ (binade x - 52)

/-- A magnitude of at most `2^1000`, far below the overflow threshold. -/
def InRange (x : ℚ) : Prop :=
  |x| ≤ 2 ^ 1000

namespace F64

/-- The ease-in-out curve of lines 230-232, each operation rounded. -/
def ease (t : ℚ) : ℚ :=
  if t < 0.5 then f64 (f64 (2 * t) * t)
  else f64 (-1 + f64 (f64 (4 - f64 (2 * t)) * t))

/-- One component of `lerpVectors(v1, v2, alpha)`: `v1 + (v2 - v1) * alpha`,
each operation rounded. -/
def lerp (v1 v2 alpha : ℚ) : ℚ :=
  f64 (v1 + f64 (f64 (v2 - v1) * alpha))

/-- The method `lerpVectors(v1, v2, alpha)`, each operation rounded. -/
def lerpVectors (v1 v2 : Vector3) (alpha : ℚ) : Vector3 :=
  ⟨lerp v1.x v2.x alpha, lerp v1.y v2.y alpha, lerp v1.z v2.z alpha⟩

/-- The `if (cameraTransition) { ... }` block of `animate` (lines 225-241),
each operation rounded, without the call to `controls.update()`. -/
def transitionStep (delta : ℚ) (s : AppState) : AppState :=
  match s.cameraTransition with
  | none => s
  | some tr =>
    let tr := { tr with elapsed := f64 (tr.elapsed + delta) }
    let t := min (f64 (tr.elapsed / tr.duration)) 1
    let e := ease t
    let s := { s with
      cameraTransition := some tr
      camera := { s.camera with position := lerpVectors tr.fromPos tr.toPos e }
      controlsTarget := lerpVectors tr.fromTarget tr.toTarget e }
    if t ≥ 1 then
      { s with
        camera := { s.camera with position := tr.toPos }
        controlsTarget := tr.toTarget
        cameraTransition := none }
    else s

/-- The transition block applied once per frame delta, in order. -/
def runFrames (deltas : List ℚ) (s : AppState) : AppState :=
  deltas.foldl (fun st d => transitionStep d st) s

/-- The value that `elapsed += delta`, frame after frame, accumulates from
`elapsed`. -/
def elapsedAfter (elapsed : ℚ) (deltas : List ℚ) : ℚ :=
  deltas.foldl (fun e d => f64 (e + d)) elapsed

/-- The function `createHighlightBox(boxData)` (lines 59-94), each operation
rounded; indexing and negation are exact. -/
def createHighlightBox (boxData : BoxRecord) : Mesh :=
  let position : Fin 3 → ℚ :=
    ![boxData.location 0, boxData.location 2, -boxData.location 1]
  let scaleVal : ℚ := 2
  let scale : Fin 3 → ℚ :=
    ![f64 (boxData.scale 0 * scaleVal),
      f64 (f64 (boxData.scale 2 * scaleVal) + f64 0.05),
      f64 (boxData.scale 1 * scaleVal)]
  let rotation : Fin 3 → ℚ :=
    ![boxData.rotation 0, boxData.rotation 2, boxData.rotation 1]
  { scale := ⟨scale 0, scale 1, scale 2⟩
    position := ⟨position 0, position 1, position 2⟩
    rotation := ⟨rotation 0, rotation 1, rotation 2⟩ }

end F64

/-- A transition towards the double `0.3` on the x axis, as `smoothLookAt`
stores it: duration the double `0.7`, elapsed 0. -/
def sampleTransition64 : CameraTransition :=
  { fromPos := ⟨1, 0, 1⟩
    toPos := ⟨f64 0.3, 0, 4⟩
    fromTarget := ⟨0, 0, 0⟩
    toTarget := ⟨6, 0, 8⟩
    duration := f64 0.7
    elapsed := 0 }

/-- The initial state with `sampleTransition64` in flight. -/
def sampleAnimating64 : AppState :=
  { initialState 0 with cameraTransition := some sampleTransition64 }

/-- Five frame deltas, the doubles 0.218, 0.261, 0.082, 0.061 and 0.078 (frames
218, 261, 82, 61 and 78 ms apart). -/
def roundingFrames : List ℚ :=
  [f64 0.218, f64 0.261, f64 0.082, f64 0.061, f64 0.078]

/-- The scale entries of the record are doubles in range, as numbers read from
`boxCoords.json` are. -/
def DoubleScale (b : BoxRecord) : Prop :=
  ∀ i, f64 (b.scale i) = b.scale i ∧ InRange (b.scale i)

/-- A box record with scale `[1, 1, 0]`. -/
def flatBox : BoxRecord :=
  ⟨"A1", none, ![0, 0, 0], ![1, 1, 0], ![0, 0, 0]⟩

/-- A box record with scale `[1, 1, 2⁻⁷⁰]`. -/
def thinBox : BoxRecord :=
  ⟨"A1", none, ![0, 0, 0], ![1, 1, 1 / 2 ^ 70], ![0, 0, 0]⟩

/-! ## Coordinate conversion -/

/-- C1: for a box record with location `[x,y,z]`, scale `[sx,sy,sz]` and
rotation `[rx,ry,rz]`, the mesh of `createHighlightBox` has position
`(x, z, -y)`, scale `(2*sx, 2*sz + 0.05, 2*sy)` and rotation `(rx, rz, ry)`. -/
theorem createHighlightBox_transform (b : BoxRecord) (x y z sx sy sz rx ry rz : ℚ)
    (hl : b.location = ![x, y, z]) (hs : b.scale = ![sx, sy, sz])
    (hr : b.rotation = ![rx, ry, rz]) :
    (createHighlightBox b).position = ⟨x, z, -y⟩ ∧
    (createHighlightBox b).scale = ⟨2 * sx, 2 * sz + 0.05, 2 * sy⟩ ∧
    (createHighlightBox b).rotation = ⟨rx, rz, ry⟩ := by
  simp [createHighlightBox, hl, hs, hr, mul_comm]

/-- C1 at the inputs the specification names: location `[1,2,3]` gives position
`[1,3,-2]` and scale `[1,1,1]` gives scale `[2, 2.05, 2]`. -/
theorem createHighlightBox_transform_witness :
    (createHighlightBox ⟨"A1", none, ![1, 2, 3], ![1, 1, 1], ![0, 0, 0]⟩).position
        = ⟨1, 3, -2⟩ ∧
    (createHighlightBox ⟨"A1", none, ![1, 2, 3], ![1, 1, 1], ![0, 0, 0]⟩).scale
        = ⟨2, 2.05, 2⟩ ∧
    (createHighlightBox ⟨"A1", none, ![1, 2, 3], ![1, 1, 1], ![0, 0, 0]⟩).rotation
        = ⟨0, 0, 0⟩ := by
  have h := createHighlightBox_transform ⟨"A1", none, ![1, 2, 3], ![1, 1, 1], ![0, 0, 0]⟩
    1 2 3 1 1 1 0 0 0 rfl rfl rfl
  norm_num at h ⊢
  exact h

/-! ## Ease curve -/

/-- The curve in exact arithmetic: `ease 0 = 0`, `ease 0.5 = 0.5`, `ease 1 = 1`,
and `ease` is monotone non-decreasing on `[0, 1]`. -/
theorem ease_exact_monotone :
    ease 0 = 0 ∧ ease 0.5 = 0.5 ∧ ease 1 = 1 ∧
    ∀ s t : ℚ, 0 ≤ s → s ≤ t → t ≤ 1 → ease s ≤ ease t := by
  refine ⟨by norm_num [ease], by norm_num [ease], by norm_num [ease], ?_⟩
  intro s t hs hst ht
  unfold ease
  norm_num
  split_ifs with h₁ h₂ h₂
  · nlinarith
  · nlinarith
  · linarith
  · nlinarith

/-! ## Camera transition in exact arithmetic -/

/-- With duration 0.7 the normalised progress reaches 1 exactly when the
elapsed time reaches 0.7. -/
theorem progress_ge_one_iff (e : ℚ) : min (e / 0.7) 1 ≥ 1 ↔ 0.7 ≤ e := by
  rw [ge_iff_le, le_min_iff]
  constructor
  · rintro ⟨h, _⟩
    rw [le_div_iff₀ (by norm_num)] at h
    linarith
  · intro h
    refine ⟨?_, le_refl 1⟩
    rw [le_div_iff₀ (by norm_num)]
    linarith

/-- A frame that does not reach the duration keeps the transition and only
advances its elapsed time. -/
theorem transitionStep_running (s : AppState) (tr : CameraTransition) (d : ℚ)
    (hs : s.cameraTransition = some tr) (hd : tr.duration = 0.7)
    (h : tr.elapsed + d < 0.7) :
    (transitionStep d s).cameraTransition = some { tr with elapsed := tr.elapsed + d } := by
  have hn : ¬ min ((tr.elapsed + d) / 0.7) 1 ≥ 1 := by
    rw [progress_ge_one_iff]; linarith
  simp only [transitionStep, hs, hd]
  rw [if_neg hn]

/-! ## Highlight box invariant -/

/-- The initial scene holds the two lights and no highlight. -/
theorem initialState_consistent (startTime : ℚ) : Consistent (initialState startTime) :=
  ⟨rfl, fun h => absurd rfl h⟩

/-- Removing the current highlight and showing a new one leaves exactly the new
one in the scene. -/
theorem showHighlight_scene (box : BoxRecord) (s : AppState)
    (hs : s.scene = sceneOf s.highlightBox) :
    (showHighlight box (removeCurrentHighlight s)).scene =
      sceneOf (showHighlight box (removeCurrentHighlight s)).highlightBox := by
  cases hb : s.highlightBox with
  | none =>
    simp [showHighlight, removeCurrentHighlight, hb, hs, sceneOf, sceneAdd]
  | some h =>
    simp [showHighlight, removeCurrentHighlight, hb, hs, sceneOf, sceneAdd, sceneRemove,
      SceneChild.highlightId, List.eraseP_cons]

/-- Starting a transition touches neither the scene nor the box variables. -/
theorem smoothLookAt_scene (sqrt : ℚ → ℚ) (p : Vector3) (s : AppState) :
    (smoothLookAt sqrt p s).scene = s.scene ∧
    (smoothLookAt sqrt p s).highlightBox = s.highlightBox ∧
    (smoothLookAt sqrt p s).loadedBoxes = s.loadedBoxes := ⟨rfl, rfl, rfl⟩

/-- Each callback keeps the state consistent and creates a highlight exactly
when a load delivers a box or a highlight was there already. -/
theorem step_consistent (sqrt : ℚ → ℚ) (s : AppState) (e : Event) (hc : Consistent s) :
    Consistent (step sqrt s e) ∧
    (step sqrt s e).highlightBox.isSome = (s.highlightBox.isSome || e.deliversBox) := by
  obtain ⟨hscene, hboxes⟩ := hc
  cases e with
  | boxesLoaded boxes =>
    cases boxes with
    | nil =>
      refine ⟨⟨hscene, fun h => absurd rfl h⟩, ?_⟩
      simp [step, onBoxesLoaded, Event.deliversBox]
    | cons first rest =>
      refine ⟨⟨?_, fun _ => rfl⟩, ?_⟩
      · exact showHighlight_scene first _ hscene
      · simp [step, onBoxesLoaded, Event.deliversBox, showHighlight]
  | selectChange selectedId =>
    cases hf : s.loadedBoxes.find? (fun b => b.boxId == selectedId) with
    | none =>
      have hstep : step sqrt s (.selectChange selectedId) = s := by
        simp only [step, onSelectChange, hf]
      rw [hstep]
      exact ⟨⟨hscene, hboxes⟩, by simp [Event.deliversBox]⟩
    | some boxData =>
      have hne : s.loadedBoxes ≠ [] := by
        intro h; rw [h] at hf; simp at hf
      have hsome := hboxes hne
      have hstep : step sqrt s (.selectChange selectedId) =
          smoothLookAt sqrt ⟨boxData.location 0, boxData.location 2, -boxData.location 1⟩
            (showHighlight boxData (removeCurrentHighlight s)) := by
        simp only [step, onSelectChange, hf]
      rw [hstep]
      obtain ⟨h₁, h₂, h₃⟩ := smoothLookAt_scene sqrt
        ⟨boxData.location 0, boxData.location 2, -boxData.location 1⟩
        (showHighlight boxData (removeCurrentHighlight s))
      refine ⟨⟨?_, ?_⟩, ?_⟩
      · rw [h₁, h₂]; exact showHighlight_scene boxData s hscene
      · intro _; rw [h₂]; rfl
      · rw [h₂, hsome]; rfl

/-- Consistency along a whole sequence of callbacks. -/
theorem run_consistent (sqrt : ℚ → ℚ) (events : List Event) :
    ∀ s : AppState, Consistent s →
      Consistent (run sqrt s events) ∧
      (run sqrt s events).highlightBox.isSome =
        (s.highlightBox.isSome || events.any Event.deliversBox) := by
  induction events with
  | nil => intro s hc; exact ⟨hc, by simp [run]⟩
  | cons e rest ih =>
    intro s hc
    obtain ⟨hc₁, hsome₁⟩ := step_consistent sqrt s e hc
    obtain ⟨hc₂, hsome₂⟩ := ih (step sqrt s e) hc₁
    refine ⟨hc₂, ?_⟩
    show (run sqrt (step sqrt s e) rest).highlightBox.isSome = _
    rw [hsome₂, hsome₁, List.any_cons, Bool.or_assoc]

/-- In a consistent state the scene holds one highlight or none, according to
`highlightBox`. -/
theorem highlightCount_of_consistent (s : AppState) (hc : Consistent s) :
    highlightCount s = if s.highlightBox.isSome then 1 else 0 := by
  unfold highlightCount
  rw [hc.1]
  cases s.highlightBox <;> simp [sceneOf, SceneChild.highlightId]

/-- C4, as the code has it: after the load completion and selection changes in
any order and number, the scene holds exactly one highlight box when a load has
delivered at least one box, and none otherwise (before the load, and after a
load that delivered an empty box list). -/
theorem highlightCount_run (sqrt : ℚ → ℚ) (startTime : ℚ) (events : List Event) :
    highlightCount (run sqrt (initialState startTime) events) =
      if events.any Event.deliversBox then 1 else 0 := by
  obtain ⟨hc, hsome⟩ := run_consistent sqrt events (initialState startTime)
    (initialState_consistent startTime)
  rw [highlightCount_of_consistent _ hc, hsome]
  simp [initialState]

/-- C4 fails as stated: the load completes with an empty box list, a selection
change follows, and the scene holds no highlight box. -/
theorem highlightCount_after_empty_load :
    Event.isLoad (.boxesLoaded []) = true ∧
    highlightCount (run sampleSqrt (initialState 0) [.boxesLoaded []]) ≠ 1 ∧
    highlightCount
      (run sampleSqrt (initialState 0) [.boxesLoaded [], .selectChange ""]) ≠ 1 := by
  refine ⟨rfl, ?_, ?_⟩ <;> decide

/-! ## Starting a transition -/

/-- The transition record that `smoothLookAt` stores is determined by the
target, the camera position and the controls target. -/
theorem smoothLookAt_transition (sqrt : ℚ → ℚ) (p : Vector3) (s : AppState) :
    (smoothLookAt sqrt p s).cameraTransition = some
      { fromPos := s.camera.position
        toPos := p.addScaledVector ((Vector3.subVectors p ⟨0, 0, 0⟩).normalize sqrt) (-2.5)
        fromTarget := s.controlsTarget
        toTarget := p
        duration := 0.7
        elapsed := 0 } := rfl

/-- For a target other than the origin, and a square root that is exact on
the squared length of the target, the destination of `smoothLookAt` is
`p - 2.5 * p / |p|`, at distance 2.5 from the target. -/
theorem smoothLookAt_fixedDistance (sqrt : ℚ → ℚ) (p : Vector3) (s : AppState)
    (hp : p.lengthSq ≠ 0) (hsq : sqrt p.lengthSq * sqrt p.lengthSq = p.lengthSq) :
    ∃ tr, (smoothLookAt sqrt p s).cameraTransition = some tr ∧
      tr.toPos = p.addScaledVector (p.divideScalar (sqrt p.lengthSq)) (-2.5) ∧
      Vector3.distanceToSquared tr.toPos p = 2.5 * 2.5 ∧
      tr.toTarget = p ∧ tr.duration = 0.7 ∧ tr.elapsed = 0 := by
  have hl : sqrt p.lengthSq ≠ 0 := by
    intro h; rw [h] at hsq; simp at hsq; exact hp hsq.symm
  have hsub : Vector3.subVectors p ⟨0, 0, 0⟩ = p := by
    cases p; simp [Vector3.subVectors]
  have hnorm : (Vector3.subVectors p ⟨0, 0, 0⟩).normalize sqrt
      = p.divideScalar (sqrt p.lengthSq) := by
    rw [hsub]; simp [Vector3.normalize, Vector3.length, hl]
  refine ⟨_, smoothLookAt_transition sqrt p s, ?_, ?_, rfl, rfl, rfl⟩
  · show p.addScaledVector _ _ = _
    rw [hnorm]
  · show Vector3.distanceToSquared (p.addScaledVector _ _) p = _
    rw [hnorm]
    have key : Vector3.distanceToSquared
        (p.addScaledVector (p.divideScalar (sqrt p.lengthSq)) (-2.5)) p
        = 2.5 * 2.5 * p.lengthSq / (sqrt p.lengthSq * sqrt p.lengthSq) := by
      simp only [Vector3.distanceToSquared, Vector3.subVectors, Vector3.addScaledVector,
        Vector3.divideScalar, Vector3.multiplyScalar]
      generalize sqrt p.lengthSq = l at hl
      simp only [Vector3.lengthSq]
      field_simp
      ring
    rw [key, hsq]
    field_simp

/-- The target `(0, 3, 4)`, of length 5, gets the destination `(0, 1.5, 2)`, at
distance 2.5 from it. -/
theorem smoothLookAt_fixedDistance_example :
    ∃ tr, (smoothLookAt sampleSqrt ⟨0, 3, 4⟩ (initialState 0)).cameraTransition = some tr ∧
      tr.toPos = ⟨0, 1.5, 2⟩ ∧
      Vector3.distanceToSquared tr.toPos ⟨0, 3, 4⟩ = 2.5 * 2.5 := by
  have h25 : sampleSqrt 25 = 5 := by
    show Rat.sqrt 25 = 5
    rw [show (25 : ℚ) = 5 * 5 by norm_num, Rat.sqrt_eq]
    norm_num
  have hlen : (⟨0, 3, 4⟩ : Vector3).lengthSq = 25 := by norm_num [Vector3.lengthSq]
  obtain ⟨tr, h₁, h₂, h₃, _⟩ := smoothLookAt_fixedDistance sampleSqrt ⟨0, 3, 4⟩ (initialState 0)
    (by rw [hlen]; norm_num) (by rw [hlen, h25]; norm_num)
  refine ⟨tr, h₁, ?_, h₃⟩
  rw [h₂, hlen, h25]
  norm_num [Vector3.addScaledVector, Vector3.divideScalar, Vector3.multiplyScalar]

/-- C5 at the origin: for the target `(0,0,0)` the direction normalises to the
zero vector, so the destination of `smoothLookAt` is the target itself, at
distance 0 from it and not 2.5. -/
theorem smoothLookAt_origin (sqrt : ℚ → ℚ) (s : AppState) :
    ∃ tr, (smoothLookAt sqrt ⟨0, 0, 0⟩ s).cameraTransition = some tr ∧
      tr.toPos = ⟨0, 0, 0⟩ ∧ tr.toTarget = ⟨0, 0, 0⟩ ∧
      Vector3.distanceToSquared tr.toPos tr.toTarget = 0 ∧
      Vector3.distanceToSquared tr.toPos tr.toTarget ≠ 2.5 * 2.5 := by
  refine ⟨_, smoothLookAt_transition sqrt ⟨0, 0, 0⟩ s, ?_, rfl, ?_, ?_⟩ <;>
    norm_num [Vector3.addScaledVector, Vector3.subVectors, Vector3.normalize,
      Vector3.divideScalar, Vector3.multiplyScalar, Vector3.distanceToSquared,
      Vector3.lengthSq]

/-- C6: with a transition in flight, `smoothLookAt p` stores a transition that
starts at the current camera position and controls target, aims at `p` and has
elapsed 0; the stored record is the same whatever the previous transition
was, and it is the single record of the state. -/
theorem smoothLookAt_supersedes (sqrt : ℚ → ℚ) (p : Vector3) (s : AppState)
    (old : CameraTransition) (hold : s.cameraTransition = some old) :
    (∃ tr, (smoothLookAt sqrt p s).cameraTransition = some tr ∧
      tr.fromPos = s.camera.position ∧ tr.fromTarget = s.controlsTarget ∧
      tr.toTarget = p ∧ tr.elapsed = 0) ∧
    (∀ other : Option CameraTransition,
      (smoothLookAt sqrt p { s with cameraTransition := other }).cameraTransition =
        (smoothLookAt sqrt p s).cameraTransition) ∧
    (smoothLookAt sqrt p s).camera = s.camera ∧
    (smoothLookAt sqrt p s).controlsTarget = s.controlsTarget := by
  have _ := hold
  exact ⟨⟨_, smoothLookAt_transition sqrt p s, rfl, rfl, rfl, rfl⟩, fun _ => rfl, rfl, rfl⟩

/-- A frame that does not reach the duration leaves the camera and the
controls target at the eased interpolation. -/
theorem transitionStep_running_position (s : AppState) (tr : CameraTransition) (d : ℚ)
    (hs : s.cameraTransition = some tr) (hd : tr.duration = 0.7)
    (h : tr.elapsed + d < 0.7) :
    (transitionStep d s).camera.position =
      Vector3.lerpVectors tr.fromPos tr.toPos (ease (min ((tr.elapsed + d) / 0.7) 1)) ∧
    (transitionStep d s).controlsTarget =
      Vector3.lerpVectors tr.fromTarget tr.toTarget (ease (min ((tr.elapsed + d) / 0.7) 1)) := by
  have hn : ¬ min ((tr.elapsed + d) / 0.7) 1 ≥ 1 := by
    rw [progress_ge_one_iff]; linarith
  simp only [transitionStep, hs, hd]
  rw [if_neg hn]
  exact ⟨rfl, rfl⟩

/-- C6 half-way through `sampleTransition`: the camera is at `(1.5, 0, 2.5)`,
the controls target at `(3, 0, 4)`, and a new transition towards `(0, 3, 4)`
starts from exactly there with elapsed 0. -/
theorem smoothLookAt_supersedes_witness :
    (transitionStep 0.35 sampleAnimating).cameraTransition =
      some { sampleTransition with elapsed := 0.35 } ∧
    ∃ tr, (smoothLookAt sampleSqrt ⟨0, 3, 4⟩
        (transitionStep 0.35 sampleAnimating)).cameraTransition = some tr ∧
      tr.fromPos = ⟨1.5, 0, 2.5⟩ ∧ tr.fromTarget = ⟨3, 0, 4⟩ ∧
      tr.toTarget = ⟨0, 3, 4⟩ ∧ tr.elapsed = 0 := by
  have hrun := transitionStep_running sampleAnimating sampleTransition 0.35 rfl rfl
    (by norm_num [sampleTransition])
  have hpos := transitionStep_running_position sampleAnimating sampleTransition 0.35 rfl rfl
    (by norm_num [sampleTransition])
  obtain ⟨⟨tr, h₁, h₂, h₃, h₄, h₅⟩, _⟩ :=
    smoothLookAt_supersedes sampleSqrt ⟨0, 3, 4⟩ (transitionStep 0.35 sampleAnimating) _ hrun
  refine ⟨?_, tr, h₁, ?_, ?_, h₄, h₅⟩
  · rw [hrun]; norm_num [sampleTransition]
  · rw [h₂, hpos.1]; norm_num [sampleTransition, Vector3.lerpVectors, ease]
  · rw [h₃, hpos.2]; norm_num [sampleTransition, Vector3.lerpVectors, ease]

/-! ## Keyboard -/

/-- The `keydown` listener leaves the key state alone when the event target is
an `INPUT`, `SELECT` or `TEXTAREA` element. -/
theorem keydown_ignored (e : KeyboardEvent) (keys : Keys)
    (ht : e.targetTagName = "INPUT" ∨ e.targetTagName = "SELECT" ∨
      e.targetTagName = "TEXTAREA") :
    keydown e keys = keys := by
  rcases ht with h | h | h <;> simp [keydown, h]

/-- On any other target, `keydown` of a movement key sets that key to true and
touches no other key. -/
theorem keydown_sets (e : KeyboardEvent) (keys : Keys)
    (ht : ¬ (e.targetTagName = "INPUT" ∨ e.targetTagName = "SELECT" ∨
      e.targetTagName = "TEXTAREA")) :
    (toLowerCase e.key = "w" → keydown e keys = { keys with w := true }) ∧
    (toLowerCase e.key = "a" → keydown e keys = { keys with a := true }) ∧
    (toLowerCase e.key = "s" → keydown e keys = { keys with s := true }) ∧
    (toLowerCase e.key = "d" → keydown e keys = { keys with d := true }) := by
  push_neg at ht
  obtain ⟨h₁, h₂, h₃⟩ := ht
  refine ⟨?_, ?_, ?_, ?_⟩ <;> intro hk <;> simp [keydown, h₁, h₂, h₃, hk, Keys.set]

/-- The `keyup` listener sets a movement key to false whatever the target is. -/
theorem keyup_sets (e : KeyboardEvent) (keys : Keys) :
    (toLowerCase e.key = "w" → keyup e keys = { keys with w := false }) ∧
    (toLowerCase e.key = "a" → keyup e keys = { keys with a := false }) ∧
    (toLowerCase e.key = "s" → keyup e keys = { keys with s := false }) ∧
    (toLowerCase e.key = "d" → keyup e keys = { keys with d := false }) := by
  refine ⟨?_, ?_, ?_, ?_⟩ <;> intro hk <;> simp [keyup, hk, Keys.set]

/-- C7 on `keyup`: with `w` held, a `keyup` of `w` whose target is an `INPUT`
element sets `w` to false, so the key state after the handler differs from the
key state before it, while the same event as `keydown` is ignored. -/
theorem keyup_on_input_changes_keys :
    keyup ⟨"INPUT", "w"⟩ ⟨true, false, false, false⟩ = ⟨false, false, false, false⟩ ∧
    keyup ⟨"INPUT", "w"⟩ ⟨true, false, false, false⟩ ≠ ⟨true, false, false, false⟩ ∧
    keydown ⟨"INPUT", "w"⟩ ⟨false, false, false, false⟩ = ⟨false, false, false, false⟩ := by
  decide

/-! ## Movement -/

/-- C9: with none of `w`, `a`, `s`, `d` held, `updateCameraMovement` leaves the
camera position as it was, for every camera position, orientation and up
vector. -/
theorem updateCameraMovement_no_keys (sqrt : ℚ → ℚ) (s : AppState)
    (hw : s.keys.w = false) (ha : s.keys.a = false) (hs : s.keys.s = false)
    (hd : s.keys.d = false) :
    (updateCameraMovement sqrt s).camera.position = s.camera.position := by
  simp [updateCameraMovement, hw, ha, hs, hd]

/-- C9 at the initial state, where no key is held and the camera is at
`(0, 0, 1)`. -/
theorem updateCameraMovement_no_keys_witness :
    (updateCameraMovement sampleSqrt (initialState 0)).camera.position = ⟨0, 0, 1⟩ :=
  updateCameraMovement_no_keys sampleSqrt (initialState 0) rfl rfl rfl rfl

/-- The movement step changes nothing but the camera position. -/
theorem updateCameraMovement_frame (sqrt : ℚ → ℚ) (s : AppState) :
    (updateCameraMovement sqrt s).cameraTransition = s.cameraTransition ∧
    (updateCameraMovement sqrt s).controlsTarget = s.controlsTarget ∧
    (updateCameraMovement sqrt s).lastTime = s.lastTime := ⟨rfl, rfl, rfl⟩

/-- With a transition in flight the block overwrites the camera position with
the eased interpolation, whatever the position was before. -/
theorem transitionStep_position (s : AppState) (tr : CameraTransition) (d : ℚ)
    (hs : s.cameraTransition = some tr) :
    (transitionStep d s).camera.position =
      Vector3.lerpVectors tr.fromPos tr.toPos
        (ease (min ((tr.elapsed + d) / tr.duration) 1)) := by
  simp only [transitionStep, hs]
  split_ifs with h
  · have ht : min ((tr.elapsed + d) / tr.duration) 1 = 1 := le_antisymm (min_le_right _ _) h
    rw [ht]
    show tr.toPos = _
    cases htp : tr.toPos
    norm_num [Vector3.lerpVectors, ease]
  · rfl

/-- C10: with a transition in flight (its duration not zero), the camera
position after one `animate` tick is
`lerp(fromPos, toPos, ease(min(elapsed' / duration, 1)))` with
`elapsed' = elapsed + delta`, and is the same for any two key states. -/
theorem animate_position_ignores_keys (sqrt : ℚ → ℚ) (now : ℚ) (s : AppState)
    (tr : CameraTransition) (k₁ k₂ : Keys)
    (hs : s.cameraTransition = some tr) (hd : tr.duration ≠ 0) :
    (animate sqrt now { s with keys := k₁ }).camera.position =
      (animate sqrt now { s with keys := k₂ }).camera.position ∧
    (animate sqrt now { s with keys := k₁ }).camera.position =
      Vector3.lerpVectors tr.fromPos tr.toPos
        (ease (min ((tr.elapsed + (now - s.lastTime) / 1000) / tr.duration) 1)) := by
  have _ := hd
  have h : ∀ k : Keys, (animate sqrt now { s with keys := k }).camera.position =
      Vector3.lerpVectors tr.fromPos tr.toPos
        (ease (min ((tr.elapsed + (now - s.lastTime) / 1000) / tr.duration) 1)) := by
    intro k
    exact transitionStep_position _ tr _ hs
  exact ⟨(h k₁).trans (h k₂).symm, h k₁⟩

/-- C10 on `sampleTransition` with a tick 350 ms after the last one: with `w`
held and with no key held the camera ends at `(1.5, 0, 2.5)`. -/
theorem animate_position_ignores_keys_witness :
    (animate sampleSqrt 350
        { sampleAnimating with keys := ⟨true, false, false, false⟩ }).camera.position =
      (animate sampleSqrt 350
        { sampleAnimating with keys := ⟨false, false, false, false⟩ }).camera.position ∧
    (animate sampleSqrt 350
        { sampleAnimating with keys := ⟨true, false, false, false⟩ }).camera.position =
      ⟨1.5, 0, 2.5⟩ := by
  have h := animate_position_ignores_keys sampleSqrt 350 sampleAnimating sampleTransition
    ⟨true, false, false, false⟩ ⟨false, false, false, false⟩ rfl
    (by norm_num [sampleTransition])
  refine ⟨h.1, ?_⟩
  rw [h.2]
  norm_num [sampleTransition, sampleAnimating, initialState, Vector3.lerpVectors, ease]

/-! ## Rounding to a double -/

/-- An integer rounds to itself. -/
theorem roundHalfEven_intCast (n : ℤ) : roundHalfEven (n : ℚ) = n := by
  simp [roundHalfEven]

/-- A number less than 1/2 away from an integer rounds to it. -/
theorem roundHalfEven_of_abs_lt (x : ℚ) (n : ℤ) (h : |x - n| < 1 / 2) :
    roundHalfEven x = n := by
  rw [abs_lt] at h
  obtain ⟨h₁, h₂⟩ := h
  have hf := Int.floor_le x
  have hc := Int.lt_floor_add_one x
  unfold roundHalfEven
  split_ifs with a b c
  · have h3 : (⌊x⌋ : ℚ) < n + 1 := by linarith
    have h4 : (n : ℚ) < ⌊x⌋ + 1 := by linarith
    have h3' : ⌊x⌋ < n + 1 := by exact_mod_cast h3
    have h4' : n < ⌊x⌋ + 1 := by exact_mod_cast h4
    omega
  · have h3 : (n : ℚ) < ⌊x⌋ + 2 := by linarith
    have h4 : (⌊x⌋ : ℚ) < n := by linarith
    have h3' : n < ⌊x⌋ + 2 := by exact_mod_cast h3
    have h4' : ⌊x⌋ < n := by exact_mod_cast h4
    omega
  · have e : x - ⌊x⌋ = 1 / 2 := le_antisymm (not_lt.mp b) (not_lt.mp a)
    have h3 : (⌊x⌋ : ℚ) < n + 1 := by linarith
    have h4 : (n : ℚ) < ⌊x⌋ + 1 := by linarith
    have h3' : ⌊x⌋ < n + 1 := by exact_mod_cast h3
    have h4' : n < ⌊x⌋ + 1 := by exact_mod_cast h4
    omega
  · have e : x - ⌊x⌋ = 1 / 2 := le_antisymm (not_lt.mp b) (not_lt.mp a)
    have h3 : (⌊x⌋ : ℚ) < n := by linarith
    have h4 : (n : ℚ) < ⌊x⌋ + 1 := by linarith
    have h3' : ⌊x⌋ < n := by exact_mod_cast h3
    have h4' : n < ⌊x⌋ + 1 := by exact_mod_cast h4
    omega

/-- A number halfway between `n` and `n + 1` rounds to the even one of the two.
-/
theorem roundHalfEven_tie (n : ℤ) :
    roundHalfEven ((n : ℚ) + 1 / 2) = if n % 2 = 0 then n else n + 1 := by
  have hfl : ⌊(n : ℚ) + 1 / 2⌋ = n := by
    rw [Int.floor_eq_iff]; constructor <;> norm_num
  unfold roundHalfEven
  rw [hfl]
  norm_num

/-- Rounding moves a number by at most 1/2. -/
theorem roundHalfEven_bounds (x : ℚ) :
    (roundHalfEven x : ℚ) ≤ x + 1 / 2 ∧ x - 1 / 2 ≤ roundHalfEven x := by
  have hf := Int.floor_le x
  have hc := Int.lt_floor_add_one x
  unfold roundHalfEven
  split_ifs with a b c
  · constructor <;> linarith
  · constructor <;> push_cast <;> linarith
  · constructor <;> linarith
  · have e : x - ⌊x⌋ = 1 / 2 := le_antisymm (not_lt.mp b) (not_lt.mp a)
    constructor <;> push_cast <;> linarith

/-- Rounding gives the floor or the integer after it. -/
theorem roundHalfEven_floor_le (x : ℚ) :
    ⌊x⌋ ≤ roundHalfEven x ∧ roundHalfEven x ≤ ⌊x⌋ + 1 := by
  unfold roundHalfEven
  split_ifs <;> constructor <;> omega

/-- Rounding is monotone. -/
theorem roundHalfEven_mono {x y : ℚ} (h : x ≤ y) : roundHalfEven x ≤ roundHalfEven y := by
  have hfl : ⌊x⌋ ≤ ⌊y⌋ := Int.floor_mono h
  rcases lt_or_eq_of_le hfl with hlt | heq
  · have h1 := (roundHalfEven_floor_le x).2
    have h2 := (roundHalfEven_floor_le y).1
    omega
  · unfold roundHalfEven
    rw [heq]
    have hx : x - ⌊y⌋ ≤ y - ⌊y⌋ := by linarith
    split_ifs <;> first | omega | (exfalso; linarith)

/-- Powers of two are positive. -/
theorem two_zpow_pos (k : ℤ) : (0 : ℚ) < 2 ^ k := zpow_pos (by norm_num) k

/-- Powers of two grow with the exponent. -/
theorem two_zpow_mono {m n : ℤ} (h : m ≤ n) : (2 : ℚ) ^ m ≤ 2 ^ n :=
  zpow_le_zpow_right₀ (by norm_num) h

/-- The integer logarithm of a number between two consecutive powers of two. -/
theorem log_two_eq (x : ℚ) (e : ℤ) (h₁ : 2 ^ e ≤ |x|) (h₂ : |x| < 2 ^ (e + 1)) :
    Int.log 2 |x| = e := by
  have hpos : (0 : ℚ) < |x| := lt_of_lt_of_le (two_zpow_pos e) h₁
  have ha : e ≤ Int.log 2 |x| := by
    rw [← Int.zpow_le_iff_le_log (by norm_num) hpos]; simpa using h₁
  have hb : Int.log 2 |x| < e + 1 := by
    rw [← Int.lt_zpow_iff_log_lt (by norm_num) hpos]; simpa using h₂
  omega

/-- The binade of a number between two consecutive powers of two, from
`2^(-1022)` on. -/
theorem binade_eq (x : ℚ) (e : ℤ) (h₁ : 2 ^ e ≤ |x|) (h₂ : |x| < 2 ^ (e + 1))
    (he : -1022 ≤ e) : binade x = e := by
  have hpos : (0 : ℚ) < |x| := lt_of_lt_of_le (two_zpow_pos e) h₁
  have hx : x ≠ 0 := abs_pos.mp hpos
  unfold binade
  rw [if_neg hx, log_two_eq x e h₁ h₂]
  exact max_eq_left he

/-- Below `2^(-1022)` the binade is `-1022`. -/
theorem binade_subnormal (x : ℚ) (h : |x| < 2 ^ (-1022 : ℤ)) : binade x = -1022 := by
  unfold binade
  split_ifs with hx
  · rfl
  · have hpos : (0 : ℚ) < |x| := abs_pos.mpr hx
    have hb : Int.log 2 |x| < -1022 := by
      rw [← Int.lt_zpow_iff_log_lt (by norm_num) hpos]; simpa using h
    exact max_eq_right (le_of_lt hb)

/-- No binade is below `-1022`. -/
theorem binade_ge (x : ℚ) : -1022 ≤ binade x := by
  unfold binade
  split_ifs
  · exact le_refl _
  · exact le_max_right _ _

/-- A number of magnitude at most `2^k` has a binade of at most `k`. -/
theorem binade_le (x : ℚ) (k : ℤ) (h : |x| ≤ 2 ^ k) (hk : -1022 ≤ k) : binade x ≤ k := by
  unfold binade
  split_ifs with hx
  · exact hk
  · have hpos : (0 : ℚ) < |x| := abs_pos.mpr hx
    have hb : Int.log 2 |x| < k + 1 := by
      rw [← Int.lt_zpow_iff_log_lt (by norm_num) hpos]
      have : (2 : ℚ) ^ k < 2 ^ (k + 1) := zpow_lt_zpow_right₀ (by norm_num) (by omega)
      simpa using lt_of_le_of_lt h this
    exact max_le (by omega) hk

/-- In its binade a number is below the next power of two. -/
theorem abs_lt_two_zpow_binade (x : ℚ) : |x| < 2 ^ (binade x + 1) := by
  unfold binade
  split_ifs with hx
  · rw [hx, abs_zero]; exact two_zpow_pos _
  · have h := Int.lt_zpow_succ_log_self (b := 2) (by norm_num) |x|
    have h' : |x| < (2 : ℚ) ^ (Int.log 2 |x| + 1) := by simpa using h
    exact lt_of_lt_of_le h' (two_zpow_mono (by omega))

/-- The double nearest to `x`, from the binade of `x` and the rounded multiple.
-/
theorem f64_eval (x : ℚ) (e n : ℤ) (hb : binade x = e)
    (hn : roundHalfEven (x / 2 ^ (e - 52)) = n) : f64 x = n * 2 ^ (e - 52) := by
  unfold f64
  rw [hb, hn]

/-- Zero is a double. -/
theorem f64_zero : f64 0 = 0 := by
  simp [f64, roundHalfEven]

/-- Rounding to a double moves a number by at most half the spacing of its
binade. -/
theorem f64_abs_err (x : ℚ) : |f64 x - x| ≤ 2 ^ (binade x - 53) := by
  have hu : (0 : ℚ) < 2 ^ (binade x - 52) := two_zpow_pos _
  have hb := roundHalfEven_bounds (x / 2 ^ (binade x - 52))
  have hx : x = x / 2 ^ (binade x - 52) * 2 ^ (binade x - 52) := by
    field_simp
  have h53 : (2 : ℚ) ^ (binade x - 53) = 2 ^ (binade x - 52) / 2 := by
    rw [show binade x - 53 = (binade x - 52) - 1 by ring, zpow_sub₀ (by norm_num), zpow_one]
  rw [h53]
  unfold f64
  set u : ℚ := 2 ^ (binade x - 52) with hudef
  set y : ℚ := x / u with hydef
  rw [abs_le]
  constructor
  · have : (roundHalfEven y : ℚ) * u - x = ((roundHalfEven y : ℚ) - y) * u := by
      rw [sub_mul]; congr 1
    rw [this]
    nlinarith [hb.2]
  · have : (roundHalfEven y : ℚ) * u - x = ((roundHalfEven y : ℚ) - y) * u := by
      rw [sub_mul]; congr 1
    rw [this]
    nlinarith [hb.1]

/-- Rounding a number of magnitude at most `2^k` moves it by at most `2^(k -
53)`. -/
theorem f64_err_of_le (x : ℚ) (k : ℤ) (h : |x| ≤ 2 ^ k) (hk : -1022 ≤ k) :
    |f64 x - x| ≤ 2 ^ (k - 53) :=
  le_trans (f64_abs_err x) (two_zpow_mono (by have := binade_le x k h hk; omega))

/-- A non-negative number rounds to a non-negative double. -/
theorem f64_nonneg (x : ℚ) (h : 0 ≤ x) : 0 ≤ f64 x := by
  unfold f64
  have hu : (0 : ℚ) < 2 ^ (binade x - 52) := two_zpow_pos _
  have h0 : (0 : ℚ) ≤ x / 2 ^ (binade x - 52) := div_nonneg h hu.le
  have := roundHalfEven_mono h0
  rw [show ((0 : ℚ)) = ((0 : ℤ) : ℚ) by norm_num, roundHalfEven_intCast] at this
  have h1 : (0 : ℚ) ≤ roundHalfEven (x / 2 ^ (binade x - 52)) := by exact_mod_cast this
  positivity

/-- A non-positive number rounds to a non-positive double. -/
theorem f64_nonpos (x : ℚ) (h : x ≤ 0) : f64 x ≤ 0 := by
  unfold f64
  have hu : (0 : ℚ) < 2 ^ (binade x - 52) := two_zpow_pos _
  have h0 : x / 2 ^ (binade x - 52) ≤ (0 : ℚ) := div_nonpos_of_nonpos_of_nonneg h hu.le
  have := roundHalfEven_mono h0
  rw [show ((0 : ℚ)) = ((0 : ℤ) : ℚ) by norm_num, roundHalfEven_intCast] at this
  have h1 : (roundHalfEven (x / 2 ^ (binade x - 52)) : ℚ) ≤ 0 := by exact_mod_cast this
  exact mul_nonpos_of_nonpos_of_nonneg h1 hu.le

/-- The double nearest to `x`, given its binade `e` and an integer `n` less than
1/2 away from `x / 2^(e - 52)`. -/
theorem f64_of_near (x : ℚ) (e n : ℤ) (h₁ : 2 ^ e ≤ |x|) (h₂ : |x| < 2 ^ (e + 1))
    (he : -1022 ≤ e) (hn : |x / 2 ^ (e - 52) - n| < 1 / 2) : f64 x = n * 2 ^ (e - 52) :=
  f64_eval x e n (binade_eq x e h₁ h₂ he) (roundHalfEven_of_abs_lt _ n hn)

/-- The double nearest to `x` when `x / 2^(e - 52)` is halfway between `n` and
`n + 1`. -/
theorem f64_of_tie (x : ℚ) (e n : ℤ) (h₁ : 2 ^ e ≤ |x|) (h₂ : |x| < 2 ^ (e + 1))
    (he : -1022 ≤ e) (hn : x / 2 ^ (e - 52) = n + 1 / 2) :
    f64 x = (if n % 2 = 0 then n else n + 1 : ℤ) * 2 ^ (e - 52) := by
  refine f64_eval x e _ (binade_eq x e h₁ h₂ he) ?_
  rw [hn]
  exact roundHalfEven_tie n

/-- The rule `f64_of_near` for a positive number. -/
theorem f64_of_near_pos (x : ℚ) (e n : ℤ) (h₁ : 2 ^ e ≤ x) (h₂ : x < 2 ^ (e + 1))
    (he : -1022 ≤ e) (hn : |x / 2 ^ (e - 52) - n| < 1 / 2) : f64 x = n * 2 ^ (e - 52) := by
  have hx : |x| = x := abs_of_pos (lt_of_lt_of_le (two_zpow_pos e) h₁)
  exact f64_of_near x e n (by rw [hx]; exact h₁) (by rw [hx]; exact h₂) he hn

/-- The rule `f64_of_near` for a negative number. -/
theorem f64_of_near_neg (x : ℚ) (e n : ℤ) (h₁ : 2 ^ e ≤ -x) (h₂ : -x < 2 ^ (e + 1))
    (he : -1022 ≤ e) (hn : |x / 2 ^ (e - 52) - n| < 1 / 2) : f64 x = n * 2 ^ (e - 52) := by
  have hx : |x| = -x := abs_of_neg (by linarith [two_zpow_pos e])
  exact f64_of_near x e n (by rw [hx]; exact h₁) (by rw [hx]; exact h₂) he hn

/-- The rule `f64_of_tie` for a positive number. -/
theorem f64_of_tie_pos (x : ℚ) (e n : ℤ) (h₁ : 2 ^ e ≤ x) (h₂ : x < 2 ^ (e + 1))
    (he : -1022 ≤ e) (hn : x / 2 ^ (e - 52) = n + 1 / 2) :
    f64 x = (if n % 2 = 0 then n else n + 1 : ℤ) * 2 ^ (e - 52) := by
  have hx : |x| = x := abs_of_pos (lt_of_lt_of_le (two_zpow_pos e) h₁)
  exact f64_of_tie x e n (by rw [hx]; exact h₁) (by rw [hx]; exact h₂) he hn

/-- The rule `f64_of_tie` for a negative number. -/
theorem f64_of_tie_neg (x : ℚ) (e n : ℤ) (h₁ : 2 ^ e ≤ -x) (h₂ : -x < 2 ^ (e + 1))
    (he : -1022 ≤ e) (hn : x / 2 ^ (e - 52) = n + 1 / 2) :
    f64 x = (if n % 2 = 0 then n else n + 1 : ℤ) * 2 ^ (e - 52) := by
  have hx : |x| = -x := abs_of_neg (by linarith [two_zpow_pos e])
  exact f64_of_tie x e n (by rw [hx]; exact h₁) (by rw [hx]; exact h₂) he hn

/-- A number of at most `2^k` rounds to a double of at most `2^k`. -/
theorem f64_le_two_zpow (x : ℚ) (k : ℤ) (h : x ≤ 2 ^ k) (hk : -1022 ≤ k) : f64 x ≤ 2 ^ k := by
  rcases le_or_lt x 0 with hx | hx
  · exact le_trans (f64_nonpos x hx) (two_zpow_pos k).le
  · have hb : binade x ≤ k := binade_le x k (by rw [abs_of_pos hx]; exact h) hk
    have hu : (0 : ℚ) < 2 ^ (binade x - 52) := two_zpow_pos _
    obtain ⟨m, hm⟩ : ∃ m : ℕ, k - (binade x - 52) = m := ⟨(k - (binade x - 52)).toNat, by omega⟩
    have hpow : (2 : ℚ) ^ k = ((2 ^ m : ℤ) : ℚ) * 2 ^ (binade x - 52) := by
      have : k = (m : ℤ) + (binade x - 52) := by omega
      rw [this, zpow_add₀ (by norm_num), zpow_natCast]
      push_cast
      ring_nf
    have hy : x / 2 ^ (binade x - 52) ≤ ((2 ^ m : ℤ) : ℚ) := by
      rw [div_le_iff₀ hu, ← hpow]; exact h
    have hr := roundHalfEven_mono hy
    rw [roundHalfEven_intCast] at hr
    have hr' : (roundHalfEven (x / 2 ^ (binade x - 52)) : ℚ) ≤ ((2 ^ m : ℤ) : ℚ) := by
      exact_mod_cast hr
    unfold f64
    rw [hpow]
    exact mul_le_mul_of_nonneg_right hr' hu.le

/-- A number of at least `2^k` rounds to a double of at least `2^k`. -/
theorem f64_ge_two_zpow (x : ℚ) (k : ℤ) (h : 2 ^ k ≤ x) (hk : -1022 ≤ k) : 2 ^ k ≤ f64 x := by
  have hx : 0 < x := lt_of_lt_of_le (two_zpow_pos k) h
  have hx0 : x ≠ 0 := ne_of_gt hx
  have hlog : k ≤ Int.log 2 |x| := by
    rw [← Int.zpow_le_iff_le_log (by norm_num) (abs_pos.mpr hx0), abs_of_pos hx]; simpa using h
  have hb : binade x = Int.log 2 |x| := by
    unfold binade; rw [if_neg hx0]; exact max_eq_left (by omega)
  have hle : (2 : ℚ) ^ binade x ≤ x := by
    rw [hb]
    have := Int.zpow_log_le_self (b := 2) (r := |x|) (by norm_num) (abs_pos.mpr hx0)
    rw [abs_of_pos hx] at this ⊢
    simpa using this
  have hu : (0 : ℚ) < 2 ^ (binade x - 52) := two_zpow_pos _
  have hpow : (2 : ℚ) ^ binade x = ((2 ^ 52 : ℤ) : ℚ) * 2 ^ (binade x - 52) := by
    rw [show binade x = (52 : ℤ) + (binade x - 52) by ring, zpow_add₀ (by norm_num)]
    norm_num
  have hy : ((2 ^ 52 : ℤ) : ℚ) ≤ x / 2 ^ (binade x - 52) := by
    rw [le_div_iff₀ hu, ← hpow]; exact hle
  have hr := roundHalfEven_mono hy
  rw [roundHalfEven_intCast] at hr
  have hr' : ((2 ^ 52 : ℤ) : ℚ) ≤ (roundHalfEven (x / 2 ^ (binade x - 52)) : ℚ) := by
    exact_mod_cast hr
  calc (2 : ℚ) ^ k ≤ 2 ^ binade x := two_zpow_mono (by omega)
    _ = ((2 ^ 52 : ℤ) : ℚ) * 2 ^ (binade x - 52) := hpow
    _ ≤ f64 x := by unfold f64; exact mul_le_mul_of_nonneg_right hr' hu.le

/-- Between 1/2 and 1 the doubles are the multiples of `2⁻⁵³`. -/
theorem f64_half_to_one (x : ℚ) (h₁ : 1 / 2 ≤ x) (h₂ : x < 1) :
    f64 x = roundHalfEven (x * 2 ^ 53) / 2 ^ 53 := by
  have hb : binade x = -1 := by
    apply binade_eq x (-1) _ _ (by norm_num)
    · rw [abs_of_pos (by linarith)]; norm_num; linarith
    · rw [abs_of_pos (by linarith)]; norm_num; linarith
  have hu : (2 : ℚ) ^ ((-1 : ℤ) - 52) = 1 / 2 ^ 53 := by norm_num
  have hd : x / (1 / 2 ^ 53) = x * 2 ^ 53 := by field_simp
  unfold f64
  rw [hb, hu, hd]
  ring

/-- Below `1 - 2⁻⁵⁴` nothing rounds up to 1. -/
theorem f64_lt_one (x : ℚ) (h : x < 1 - 1 / 2 ^ 54) : f64 x < 1 := by
  rcases lt_or_le x (1 / 2) with hx | hx
  · have := f64_le_two_zpow x (-1) (by norm_num; linarith) (by norm_num)
    norm_num at this
    linarith
  · have hx1 : x < 1 := by
      have : (0 : ℚ) < 1 / 2 ^ 54 := by positivity
      linarith
    rw [f64_half_to_one x hx hx1]
    have hb := (roundHalfEven_bounds (x * 2 ^ 53)).1
    have hlt : (roundHalfEven (x * 2 ^ 53) : ℚ) < 2 ^ 53 := by
      have : x * 2 ^ 53 < 2 ^ 53 - 1 / 2 := by
        have h' : x * 2 ^ 53 < (1 - 1 / 2 ^ 54) * 2 ^ 53 :=
          mul_lt_mul_of_pos_right h (by positivity)
        have e : ((1 : ℚ) - 1 / 2 ^ 54) * 2 ^ 53 = 2 ^ 53 - 1 / 2 := by norm_num
        linarith
      generalize x * 2 ^ 53 = z at hb this
      generalize (2 : ℚ) ^ 53 = p at this ⊢
      linarith
    rw [div_lt_one (by positivity)]
    exact hlt

/-- At or above 1 nothing rounds below 1. -/
theorem f64_ge_one (x : ℚ) (h : 1 ≤ x) : 1 ≤ f64 x := by
  have := f64_ge_two_zpow x 0 (by simpa using h) (by norm_num)
  simpa using this

/-- A double strictly between 1/2 and 1 is a multiple of `2⁻⁵³`. -/
theorem f64_grid (y : ℚ) (h₁ : 1 / 2 < f64 y) (h₂ : f64 y < 1) :
    ∃ n : ℤ, f64 y = n / 2 ^ 53 := by
  have hy1 : 1 / 2 < y := by
    by_contra hc
    have := f64_le_two_zpow y (-1) (by norm_num; linarith [not_lt.mp hc]) (by norm_num)
    norm_num at this
    linarith
  have hy2 : y < 1 := by
    by_contra hc
    have := f64_ge_one y (not_lt.mp hc)
    linarith
  exact ⟨_, f64_half_to_one y hy1.le hy2⟩

/-- A positive number that is a multiple `n` of the spacing of its binade is a
double. -/
theorem f64_of_exact_pos (x : ℚ) (e n : ℤ) (h₁ : 2 ^ e ≤ x) (h₂ : x < 2 ^ (e + 1))
    (he : -1022 ≤ e) (hx : x = n * 2 ^ (e - 52)) : f64 x = x := by
  have hu : (2 : ℚ) ^ (e - 52) ≠ 0 := (two_zpow_pos _).ne'
  rw [f64_of_near_pos x e n h₁ h₂ he (by rw [hx]; field_simp), ← hx]

/-- The number 1 is a double. -/
theorem f64_one : f64 1 = 1 :=
  f64_of_exact_pos 1 0 (2 ^ 52) (by norm_num) (by norm_num) (by norm_num) (by norm_num)

/-- The number 2 is a double. -/
theorem f64_two : f64 2 = 2 :=
  f64_of_exact_pos 2 1 (2 ^ 52) (by norm_num) (by norm_num) (by norm_num) (by norm_num)

/-- The number 3 is a double. -/
theorem f64_three : f64 3 = 3 :=
  f64_of_exact_pos 3 1 (3 * 2 ^ 51) (by norm_num) (by norm_num) (by norm_num) (by norm_num)

/-- The number 3/2 is a double. -/
theorem f64_three_halves : f64 (3 / 2) = 3 / 2 :=
  f64_of_exact_pos (3 / 2) 0 (3 * 2 ^ 51) (by norm_num) (by norm_num) (by norm_num)
    (by norm_num)

/-- The number 1/2 is a double. -/
theorem f64_half : f64 (1 / 2) = 1 / 2 :=
  f64_of_exact_pos (1 / 2) (-1) (2 ^ 52) (by norm_num) (by norm_num) (by norm_num)
    (by norm_num)

/-- A magnitude of at most 1 is in range. -/
theorem inRange_of_abs_le_one (x : ℚ) (h : |x| ≤ 1) : InRange x :=
  le_trans h (one_le_pow₀ (by norm_num))

/-- The bound `f64_err_of_le` as two inequalities, with the power of two
evaluated. -/
theorem abs_le_of_f64_err {x : ℚ} {k : ℤ} {B : ℚ} (h : |x| ≤ 2 ^ k) (hk : -1022 ≤ k)
    (hB : (2 : ℚ) ^ (k - 53) = B) : -B ≤ f64 x - x ∧ f64 x - x ≤ B := by
  have := f64_err_of_le x k h hk
  rw [hB] at this
  exact abs_le.mp this

/-- On `[0, 1]` the computed curve is within `2⁻⁴⁹` of the exact one. -/
theorem F64.ease_err (t : ℚ) (h0 : 0 ≤ t) (h1 : t ≤ 1) :
    |F64.ease t - KammerlFinder.ease t| ≤ 1 / 2 ^ 49 := by
  unfold F64.ease KammerlFinder.ease
  split_ifs with hlt
  · norm_num at hlt
    obtain ⟨a₁, a₂⟩ := abs_le_of_f64_err (x := 2 * t) (k := 0) (B := 1 / 2 ^ 53)
      (by rw [abs_of_nonneg (by linarith)]; norm_num; linarith) (by norm_num) (by norm_num)
    set A := f64 (2 * t) with hA
    have hAt : |A * t| ≤ 2 ^ (0 : ℤ) := by
      rw [abs_le]; norm_num
      constructor <;> nlinarith
    obtain ⟨c₁, c₂⟩ := abs_le_of_f64_err (x := A * t) (k := 0) (B := 1 / 2 ^ 53)
      hAt (by norm_num) (by norm_num)
    rw [abs_le]
    constructor <;> nlinarith
  · norm_num at hlt
    obtain ⟨a₁, a₂⟩ := abs_le_of_f64_err (x := 2 * t) (k := 1) (B := 1 / 2 ^ 52)
      (by rw [abs_of_nonneg (by linarith)]; norm_num; linarith) (by norm_num) (by norm_num)
    set A := f64 (2 * t) with hA
    obtain ⟨b₁, b₂⟩ := abs_le_of_f64_err (x := 4 - A) (k := 2) (B := 1 / 2 ^ 51)
      (by rw [abs_le]; norm_num; constructor <;> linarith) (by norm_num) (by norm_num)
    set B := f64 (4 - A) with hB
    have hBt : |B * t| ≤ 2 ^ (2 : ℤ) := by
      rw [abs_le]; norm_num
      constructor <;> nlinarith
    obtain ⟨c₁, c₂⟩ := abs_le_of_f64_err (x := B * t) (k := 2) (B := 1 / 2 ^ 51)
      hBt (by norm_num) (by norm_num)
    set C := f64 (B * t) with hC
    have hBt' := abs_le.mp hBt
    norm_num at hBt'
    have hB0 : 0 ≤ B * t := mul_nonneg (by linarith) h0
    obtain ⟨d₁, d₂⟩ := abs_le_of_f64_err (x := -1 + C) (k := 2) (B := 1 / 2 ^ 51)
      (by rw [abs_le]; norm_num; constructor <;> linarith) (by norm_num) (by norm_num)
    rw [abs_le]
    constructor <;> nlinarith


/-! ## Ease curve in double arithmetic -/

/-- The computed curve at 0, at 0.5 and at 1. -/
theorem ease64_endpoints : F64.ease 0 = 0 ∧ F64.ease 0.5 = 0.5 ∧ F64.ease 1 = 1 := by
  refine ⟨?_, ?_, ?_⟩
  · unfold F64.ease
    rw [if_pos (by norm_num)]
    simp [f64_zero]
  · unfold F64.ease
    rw [if_neg (by norm_num), show (2 : ℚ) * 0.5 = 1 by norm_num, f64_one,
      show (4 : ℚ) - 1 = 3 by norm_num, f64_three,
      show (3 : ℚ) * 0.5 = 3 / 2 by norm_num, f64_three_halves,
      show (-1 : ℚ) + 3 / 2 = 1 / 2 by norm_num, f64_half]
    norm_num
  · unfold F64.ease
    rw [if_neg (by norm_num), show (2 : ℚ) * 1 = 2 by norm_num, f64_two,
      show (4 : ℚ) - 2 = 2 by norm_num, f64_two, show (2 : ℚ) * 1 = 2 by norm_num, f64_two,
      show (-1 : ℚ) + 2 = 1 by norm_num, f64_one]

/-- The computed curve at the double `1 - 2⁻⁵²`: the product `(2 + 2⁻⁵¹) * t`
rounds up to 2, so the result is 1. -/
theorem ease64_below_one_a : F64.ease (1 - 1 / 2 ^ 52) = 1 := by
  have a : f64 (2 * (1 - 1 / 2 ^ 52)) = 2 - 1 / 2 ^ 51 := by
    rw [f64_of_exact_pos (2 * (1 - 1 / 2 ^ 52)) 0 (2 ^ 53 - 2) (by norm_num) (by norm_num)
      (by norm_num) (by norm_num)]
    norm_num
  have b : f64 (4 - (2 - 1 / 2 ^ 51)) = 2 + 1 / 2 ^ 51 := by
    rw [f64_of_exact_pos (4 - (2 - 1 / 2 ^ 51)) 1 (2 ^ 52 + 1) (by norm_num) (by norm_num)
      (by norm_num) (by norm_num)]
    norm_num
  have c : f64 ((2 + 1 / 2 ^ 51) * (1 - 1 / 2 ^ 52)) = 2 := by
    rw [f64_of_near_pos ((2 + 1 / 2 ^ 51) * (1 - 1 / 2 ^ 52)) 0 (2 ^ 53) (by norm_num)
      (by norm_num) (by norm_num) (by norm_num [abs_lt])]
    norm_num
  unfold F64.ease
  rw [if_neg (by norm_num), a, b, c, show (-1 : ℚ) + 2 = 1 by norm_num, f64_one]

/-- The computed curve at the next double, `1 - 2⁻⁵³`: the difference
`4 - 2 * t` is a tie and rounds down to 2, so the result is `1 - 2⁻⁵²`. -/
theorem ease64_below_one_b : F64.ease (1 - 1 / 2 ^ 53) = 1 - 1 / 2 ^ 52 := by
  have a : f64 (2 * (1 - 1 / 2 ^ 53)) = 2 - 1 / 2 ^ 52 := by
    rw [f64_of_exact_pos (2 * (1 - 1 / 2 ^ 53)) 0 (2 ^ 53 - 1) (by norm_num) (by norm_num)
      (by norm_num) (by norm_num)]
    norm_num
  have b : f64 (4 - (2 - 1 / 2 ^ 52)) = 2 := by
    rw [f64_of_tie_pos (4 - (2 - 1 / 2 ^ 52)) 1 (2 ^ 52) (by norm_num) (by norm_num)
      (by norm_num) (by norm_num)]
    norm_num
  have d : f64 (-1 + (2 - 1 / 2 ^ 52)) = 1 - 1 / 2 ^ 52 := by
    rw [f64_of_exact_pos (-1 + (2 - 1 / 2 ^ 52)) (-1) (2 ^ 53 - 2) (by norm_num) (by norm_num)
      (by norm_num) (by norm_num)]
    norm_num
  unfold F64.ease
  rw [if_neg (by norm_num), a, b, a, d]

/-- C2 fails as stated on the computed values: `1 - 2⁻⁵²` and `1 - 2⁻⁵³` are
doubles in `[0, 1]`, the first below the second, and the curve maps the first
to 1 and the second to `1 - 2⁻⁵²`. -/
theorem ease64_not_monotone :
    f64 (1 - 1 / 2 ^ 52) = 1 - 1 / 2 ^ 52 ∧ f64 (1 - 1 / 2 ^ 53) = 1 - 1 / 2 ^ 53 ∧
    (0 : ℚ) ≤ 1 - 1 / 2 ^ 52 ∧ (1 - 1 / 2 ^ 52 : ℚ) ≤ 1 - 1 / 2 ^ 53 ∧
    (1 - 1 / 2 ^ 53 : ℚ) ≤ 1 ∧
    ¬ F64.ease (1 - 1 / 2 ^ 52) ≤ F64.ease (1 - 1 / 2 ^ 53) := by
  refine ⟨?_, ?_, by norm_num, by norm_num, by norm_num, ?_⟩
  · exact f64_of_exact_pos _ (-1) (2 ^ 53 - 2) (by norm_num) (by norm_num) (by norm_num)
      (by norm_num)
  · exact f64_of_exact_pos _ (-1) (2 ^ 53 - 1) (by norm_num) (by norm_num) (by norm_num)
      (by norm_num)
  · rw [ease64_below_one_a, ease64_below_one_b]
    norm_num

/-- C2, as the code has it: the computed curve is 0 at 0, 0.5 at 0.5 and 1 at
1, it stays within `2⁻⁴⁹` of the exact curve on `[0, 1]`, and it is monotone
non-decreasing there up to rounding: `ease s ≤ ease t + 2⁻⁴⁸` for
`0 ≤ s ≤ t ≤ 1`. -/
theorem ease64_endpoints_and_monotone :
    F64.ease 0 = 0 ∧ F64.ease 0.5 = 0.5 ∧ F64.ease 1 = 1 ∧
    (∀ t : ℚ, 0 ≤ t → t ≤ 1 → |F64.ease t - ease t| ≤ 1 / 2 ^ 49) ∧
    (∀ s t : ℚ, 0 ≤ s → s ≤ t → t ≤ 1 → F64.ease s ≤ F64.ease t + 1 / 2 ^ 48) := by
  refine ⟨ease64_endpoints.1, ease64_endpoints.2.1, ease64_endpoints.2.2,
    fun t h0 h1 => F64.ease_err t h0 h1, ?_⟩
  intro s t hs hst ht
  have hexact := ease_exact_monotone.2.2.2 s t hs hst ht
  have es := abs_le.mp (F64.ease_err s hs (le_trans hst ht))
  have et := abs_le.mp (F64.ease_err t (le_trans hs hst) ht)
  have e48 : (1 : ℚ) / 2 ^ 48 = 1 / 2 ^ 49 + 1 / 2 ^ 49 := by norm_num
  linarith [es.2, et.1]


/-! ## Camera transition in double arithmetic -/

/-- The literal `0.7` denotes the double `6305039478318694 / 2⁵³`, which is
below 7/10. -/
theorem f64_seven_tenths : f64 0.7 = 6305039478318694 / 2 ^ 53 := by
  rw [f64_of_near_pos 0.7 (-1) 6305039478318694 (by norm_num) (by norm_num) (by norm_num)
    (by norm_num [abs_lt])]
  norm_num

/-- A double below the double `0.7` is at least one spacing `2⁻⁵³` below it. -/
theorem f64_lt_seven_tenths (y : ℚ) (h : f64 y < f64 0.7) :
    f64 y ≤ f64 0.7 - 1 / 2 ^ 53 := by
  rw [f64_seven_tenths] at h ⊢
  rcases le_or_lt (f64 y) (1 / 2) with hv | hv
  · have : (1 : ℚ) / 2 ≤ 6305039478318694 / 2 ^ 53 - 1 / 2 ^ 53 := by norm_num
    linarith
  · obtain ⟨n, hn⟩ := f64_grid y hv (lt_trans h (by norm_num))
    rw [hn] at h ⊢
    have h' : (n : ℚ) < 6305039478318694 := by
      have := (div_lt_div_iff_of_pos_right (by positivity : (0 : ℚ) < 2 ^ 53)).mp h
      exact this
    have hn' : n < 6305039478318694 := by exact_mod_cast h'
    have hn'' : n ≤ 6305039478318693 := by omega
    have hq : (n : ℚ) ≤ 6305039478318693 := by exact_mod_cast hn''
    rw [← sub_div, div_le_div_iff_of_pos_right (by positivity)]
    norm_num
    exact hq

/-- With the duration `0.7`, the computed progress reaches 1 exactly when the
accumulated elapsed time, a double, has reached the double `0.7`. -/
theorem progress64_ge_one_iff (y : ℚ) :
    min (f64 (f64 y / f64 0.7)) 1 ≥ 1 ↔ f64 0.7 ≤ f64 y := by
  have hD : (0 : ℚ) < f64 0.7 := by rw [f64_seven_tenths]; positivity
  have hD2 : f64 0.7 < 2 := by rw [f64_seven_tenths]; norm_num
  constructor
  · intro h
    by_contra hc
    have hlt : f64 y < f64 0.7 := not_le.mp hc
    have hgrid := f64_lt_seven_tenths y hlt
    have hq : f64 y / f64 0.7 < 1 - 1 / 2 ^ 54 := by
      rw [div_lt_iff₀ hD]
      have : f64 0.7 - 1 / 2 ^ 53 < (1 - 1 / 2 ^ 54) * f64 0.7 := by
        have e : (1 - 1 / 2 ^ 54) * f64 0.7 = f64 0.7 - f64 0.7 / 2 ^ 54 := by ring
        rw [e]
        have : f64 0.7 / 2 ^ 54 < 1 / 2 ^ 53 := by
          rw [div_lt_div_iff₀ (by positivity) (by positivity)]
          norm_num
          linarith
        linarith
      linarith
    have h1 := f64_lt_one _ hq
    have h2 : min (f64 (f64 y / f64 0.7)) 1 ≤ f64 (f64 y / f64 0.7) := min_le_left _ _
    have h3 : (1 : ℚ) ≤ min (f64 (f64 y / f64 0.7)) 1 := h
    linarith
  · intro h
    have hq : 1 ≤ f64 y / f64 0.7 := by rw [le_div_iff₀ hD]; linarith
    exact le_min (f64_ge_one _ hq) (le_refl 1)

/-- A frame after which the accumulated elapsed time is below the double `0.7`
keeps the transition. -/
theorem transitionStep64_running (s : AppState) (tr : CameraTransition) (d : ℚ)
    (hs : s.cameraTransition = some tr) (hd : tr.duration = f64 0.7)
    (h : f64 (tr.elapsed + d) < f64 0.7) :
    (F64.transitionStep d s).cameraTransition =
      some { tr with elapsed := f64 (tr.elapsed + d) } := by
  have hn : ¬ min (f64 (f64 (tr.elapsed + d) / f64 0.7)) 1 ≥ 1 := by
    rw [progress64_ge_one_iff]; exact not_le.mpr h
  simp only [F64.transitionStep, hs, hd]
  rw [if_neg hn]

/-- A frame after which the accumulated elapsed time has reached the double
`0.7` copies the destination into camera and controls and clears the
transition. -/
theorem transitionStep64_finishing (s : AppState) (tr : CameraTransition) (d : ℚ)
    (hs : s.cameraTransition = some tr) (hd : tr.duration = f64 0.7)
    (h : f64 0.7 ≤ f64 (tr.elapsed + d)) :
    (F64.transitionStep d s).cameraTransition = none ∧
    (F64.transitionStep d s).camera.position = tr.toPos ∧
    (F64.transitionStep d s).controlsTarget = tr.toTarget := by
  have hy : min (f64 (f64 (tr.elapsed + d) / f64 0.7)) 1 ≥ 1 := by
    rw [progress64_ge_one_iff]; exact h
  simp only [F64.transitionStep, hs, hd]
  rw [if_pos hy]
  exact ⟨rfl, rfl, rfl⟩

/-- Without a transition the block does nothing, for any number of frames. -/
theorem runFrames64_idle (deltas : List ℚ) (s : AppState) (hs : s.cameraTransition = none) :
    F64.runFrames deltas s = s := by
  induction deltas with
  | nil => rfl
  | cons d rest ih =>
    have h1 : F64.transitionStep d s = s := by simp only [F64.transitionStep, hs]
    show F64.runFrames rest (F64.transitionStep d s) = s
    rw [h1]
    exact ih

/-- While the accumulated elapsed time stays below the double `0.7` after
every frame, the transition stays, its elapsed field being the accumulated
value. -/
theorem runFrames64_running (deltas : List ℚ) :
    ∀ (s : AppState) (tr : CameraTransition), s.cameraTransition = some tr →
      tr.duration = f64 0.7 →
      (∀ j : Nat, 1 ≤ j → j ≤ deltas.length →
        F64.elapsedAfter tr.elapsed (deltas.take j) < f64 0.7) →
      (F64.runFrames deltas s).cameraTransition =
        some { tr with elapsed := F64.elapsedAfter tr.elapsed deltas } := by
  induction deltas with
  | nil => intro s tr hs _ _; exact hs
  | cons d rest ih =>
    intro s tr hs hd hlt
    have h1 : f64 (tr.elapsed + d) < f64 0.7 := by
      have := hlt 1 (le_refl 1) (by simp)
      simpa [F64.elapsedAfter] using this
    have hr := transitionStep64_running s tr d hs hd h1
    have h := ih (F64.transitionStep d s) { tr with elapsed := f64 (tr.elapsed + d) } hr hd
      (by
        intro j hj1 hj2
        have := hlt (j + 1) (by omega) (by simp; omega)
        simpa [F64.elapsedAfter] using this)
    show (F64.runFrames rest (F64.transitionStep d s)).cameraTransition = _
    rw [h]
    rfl

/-- Once the accumulated elapsed time has reached the double `0.7` after some
frame, the transition is cleared with camera and controls at the destination,
whatever the later frames are. -/
theorem runFrames64_finishes (deltas : List ℚ) :
    ∀ (s : AppState) (tr : CameraTransition), s.cameraTransition = some tr →
      tr.duration = f64 0.7 →
      (∃ j : Nat, 1 ≤ j ∧ j ≤ deltas.length ∧
        f64 0.7 ≤ F64.elapsedAfter tr.elapsed (deltas.take j)) →
      (F64.runFrames deltas s).cameraTransition = none ∧
      (F64.runFrames deltas s).camera.position = tr.toPos ∧
      (F64.runFrames deltas s).controlsTarget = tr.toTarget := by
  induction deltas with
  | nil =>
    intro s tr _ _ h
    obtain ⟨j, hj1, hj2, _⟩ := h
    simp at hj2
    omega
  | cons d rest ih =>
    intro s tr hs hd h
    show (F64.runFrames rest (F64.transitionStep d s)).cameraTransition = none ∧
      (F64.runFrames rest (F64.transitionStep d s)).camera.position = tr.toPos ∧
      (F64.runFrames rest (F64.transitionStep d s)).controlsTarget = tr.toTarget
    by_cases hc : f64 0.7 ≤ f64 (tr.elapsed + d)
    · have hf := transitionStep64_finishing s tr d hs hd hc
      rw [runFrames64_idle rest _ hf.1]
      exact hf
    · have hr := transitionStep64_running s tr d hs hd (not_le.mp hc)
      obtain ⟨j, hj1, hj2, hj3⟩ := h
      have hj : 2 ≤ j := by
        by_contra hlt
        have hj' : j = 1 := by omega
        rw [hj'] at hj3
        apply hc
        simpa [F64.elapsedAfter] using hj3
      obtain ⟨i, rfl⟩ : ∃ i, j = i + 1 := ⟨j - 1, by omega⟩
      exact ih (F64.transitionStep d s) { tr with elapsed := f64 (tr.elapsed + d) } hr hd
        ⟨i, by omega, by simp at hj2; omega, by simpa [F64.elapsedAfter] using hj3⟩


/-- The elapsed time that the five `roundingFrames` accumulate, frame by frame:
after the fifth it is `6305039478318693 / 2⁵³`, one spacing below the double
`0.7`. -/
theorem roundingFrames_elapsed :
    F64.elapsedAfter 0 (roundingFrames.take 1) = 7854277750134145 / 2 ^ 55 ∧
    F64.elapsedAfter 0 (roundingFrames.take 2) = 4314448443020935 / 2 ^ 53 ∧
    F64.elapsedAfter 0 (roundingFrames.take 3) = 78953730967339 / 2 ^ 47 ∧
    F64.elapsedAfter 0 (roundingFrames.take 4) = 43769358878507 / 2 ^ 46 ∧
    F64.elapsedAfter 0 (roundingFrames.take 5) = 6305039478318693 / 2 ^ 53 := by
  have l1 : f64 (0.218) = (7854277750134145 / 2 ^ 55) := by
    rw [f64_of_near_pos (0.218) (-3) 7854277750134145 (by norm_num) (by norm_num) (by norm_num)
      (by norm_num [abs_lt])]
    norm_num
  have l2 : f64 (0.261) = (2350879005487399 / 2 ^ 53) := by
    rw [f64_of_near_pos (0.261) (-2) 4701758010974798 (by norm_num) (by norm_num) (by norm_num)
      (by norm_num [abs_lt])]
    norm_num
  have l3 : f64 (0.082) = (5908722711110091 / 2 ^ 56) := by
    rw [f64_of_near_pos (0.082) (-4) 5908722711110091 (by norm_num) (by norm_num) (by norm_num)
      (by norm_num [abs_lt])]
    norm_num
  have l4 : f64 (0.061) = (1098878309078401 / 2 ^ 54) := by
    rw [f64_of_near_pos (0.061) (-5) 8791026472627208 (by norm_num) (by norm_num) (by norm_num)
      (by norm_num [abs_lt])]
    norm_num
  have l5 : f64 (0.078) = (5620492334958379 / 2 ^ 56) := by
    rw [f64_of_near_pos (0.078) (-4) 5620492334958379 (by norm_num) (by norm_num) (by norm_num)
      (by norm_num [abs_lt])]
    norm_num
  have a1 : f64 (0 + (7854277750134145 / 2 ^ 55)) = (7854277750134145 / 2 ^ 55) := by
    rw [f64_of_near_pos (0 + (7854277750134145 / 2 ^ 55)) (-3) 7854277750134145 (by norm_num) (by norm_num) (by norm_num)
      (by norm_num [abs_lt])]
    norm_num
  have a2 : f64 ((7854277750134145 / 2 ^ 55) + (2350879005487399 / 2 ^ 53)) = (4314448443020935 / 2 ^ 53) := by
    rw [f64_of_tie_pos ((7854277750134145 / 2 ^ 55) + (2350879005487399 / 2 ^ 53)) (-2) 8628896886041870 (by norm_num) (by norm_num) (by norm_num)
      (by norm_num)]
    norm_num
  have a3 : f64 ((4314448443020935 / 2 ^ 53) + (5908722711110091 / 2 ^ 56)) = (78953730967339 / 2 ^ 47) := by
    rw [f64_of_near_pos ((4314448443020935 / 2 ^ 53) + (5908722711110091 / 2 ^ 56)) (-1) 5053038781909696 (by norm_num) (by norm_num) (by norm_num)
      (by norm_num [abs_lt])]
    norm_num
  have a4 : f64 ((78953730967339 / 2 ^ 47) + (1098878309078401 / 2 ^ 54)) = (43769358878507 / 2 ^ 46) := by
    rw [f64_of_tie_pos ((78953730967339 / 2 ^ 47) + (1098878309078401 / 2 ^ 54)) (-1) 5602477936448896 (by norm_num) (by norm_num) (by norm_num)
      (by norm_num)]
    norm_num
  have a5 : f64 ((43769358878507 / 2 ^ 46) + (5620492334958379 / 2 ^ 56)) = (6305039478318693 / 2 ^ 53) := by
    rw [f64_of_near_pos ((43769358878507 / 2 ^ 46) + (5620492334958379 / 2 ^ 56)) (-1) 6305039478318693 (by norm_num) (by norm_num) (by norm_num)
      (by norm_num [abs_lt])]
    norm_num
  refine ⟨?_, ?_, ?_, ?_, ?_⟩
  · show f64 (0 + f64 0.218) = _
    rw [l1, a1]
  · show f64 (f64 (0 + f64 0.218) + f64 0.261) = _
    rw [l1, a1, l2, a2]
  · show f64 (f64 (f64 (0 + f64 0.218) + f64 0.261) + f64 0.082) = _
    rw [l1, a1, l2, a2, l3, a3]
  · show f64 (f64 (f64 (f64 (0 + f64 0.218) + f64 0.261) + f64 0.082) + f64 0.061) = _
    rw [l1, a1, l2, a2, l3, a3, l4, a4]
  · show f64 (f64 (f64 (f64 (f64 (0 + f64 0.218) + f64 0.261) + f64 0.082) + f64 0.061) + f64 0.078) = _
    rw [l1, a1, l2, a2, l3, a3, l4, a4, l5, a5]

/-- The five `roundingFrames` sum to at least 7/10 in exact arithmetic. -/
theorem roundingFrames_sum : (0.7 : ℚ) ≤ roundingFrames.sum := by
  have l1 : f64 (0.218) = (7854277750134145 / 2 ^ 55) := by
    rw [f64_of_near_pos (0.218) (-3) 7854277750134145 (by norm_num) (by norm_num) (by norm_num)
      (by norm_num [abs_lt])]
    norm_num
  have l2 : f64 (0.261) = (2350879005487399 / 2 ^ 53) := by
    rw [f64_of_near_pos (0.261) (-2) 4701758010974798 (by norm_num) (by norm_num) (by norm_num)
      (by norm_num [abs_lt])]
    norm_num
  have l3 : f64 (0.082) = (5908722711110091 / 2 ^ 56) := by
    rw [f64_of_near_pos (0.082) (-4) 5908722711110091 (by norm_num) (by norm_num) (by norm_num)
      (by norm_num [abs_lt])]
    norm_num
  have l4 : f64 (0.061) = (1098878309078401 / 2 ^ 54) := by
    rw [f64_of_near_pos (0.061) (-5) 8791026472627208 (by norm_num) (by norm_num) (by norm_num)
      (by norm_num [abs_lt])]
    norm_num
  have l5 : f64 (0.078) = (5620492334958379 / 2 ^ 56) := by
    rw [f64_of_near_pos (0.078) (-4) 5620492334958379 (by norm_num) (by norm_num) (by norm_num)
      (by norm_num [abs_lt])]
    norm_num
  show (0.7 : ℚ) ≤ f64 0.218 + (f64 0.261 + (f64 0.082 + (f64 0.061 + (f64 0.078 + 0))))
  rw [l1, l2, l3, l4, l5]
  norm_num

/-- At progress 1 the interpolation formula does not return its second
argument: from 1 towards the double `0.3` it gives `1351079888211149 / 2⁵²`, the
next double above. -/
theorem lerp64_at_one :
    f64 0.3 = 5404319552844595 / 2 ^ 54 ∧ F64.lerp 1 (f64 0.3) 1 = 1351079888211149 / 2 ^ 52 ∧
    F64.lerp 1 (f64 0.3) 1 ≠ f64 0.3 := by
  have t : f64 (0.3) = (5404319552844595 / 2 ^ 54) := by
    rw [f64_of_near_pos (0.3) (-2) 5404319552844595 (by norm_num) (by norm_num) (by norm_num)
      (by norm_num [abs_lt])]
    norm_num
  have x : f64 ((5404319552844595 / 2 ^ 54) - 1) = (-(3152519739159347 / 2 ^ 52)) := by
    rw [f64_of_tie_neg ((5404319552844595 / 2 ^ 54) - 1) (-1) (-6305039478318695) (by norm_num) (by norm_num)
      (by norm_num) (by norm_num)]
    norm_num
  have y : f64 ((-(3152519739159347 / 2 ^ 52)) * 1) = (-(3152519739159347 / 2 ^ 52)) := by
    rw [f64_of_near_neg ((-(3152519739159347 / 2 ^ 52)) * 1) (-1) (-6305039478318694) (by norm_num) (by norm_num) (by norm_num)
      (by norm_num [abs_lt])]
    norm_num
  have z : f64 (1 + (-(3152519739159347 / 2 ^ 52))) = (1351079888211149 / 2 ^ 52) := by
    rw [f64_of_near_pos (1 + (-(3152519739159347 / 2 ^ 52))) (-2) 5404319552844596 (by norm_num) (by norm_num) (by norm_num)
      (by norm_num [abs_lt])]
    norm_num
  have hl : F64.lerp 1 (f64 0.3) 1 = 1351079888211149 / 2 ^ 52 := by
    unfold F64.lerp
    rw [t, x, y, z]
  refine ⟨t, hl, ?_⟩
  rw [hl, t]
  norm_num


/-- C3, as the code has it: for a transition with elapsed 0 and the duration
`0.7`, and frame deltas in range, the record is cleared, with the camera at
`toPos` and the controls target at `toTarget` exactly, once the elapsed time
that the frames accumulate in double arithmetic has reached the double `0.7`
after some frame; and after any prefix of frames during which the accumulated
elapsed time stayed below the double `0.7` after every frame, the transition is
still there, its elapsed field being the accumulated value. -/
theorem transition64_completes (s : AppState) (tr : CameraTransition) (deltas : List ℚ)
    (hs : s.cameraTransition = some tr) (h0 : tr.elapsed = 0) (hd : tr.duration = f64 0.7)
    (hfin : ∀ d ∈ deltas, InRange d)
    (hacc : ∀ j : Nat, InRange (F64.elapsedAfter 0 (deltas.take j))) :
    ((∃ j : Nat, 1 ≤ j ∧ j ≤ deltas.length ∧
        f64 0.7 ≤ F64.elapsedAfter 0 (deltas.take j)) →
      (F64.runFrames deltas s).cameraTransition = none ∧
      (F64.runFrames deltas s).camera.position = tr.toPos ∧
      (F64.runFrames deltas s).controlsTarget = tr.toTarget) ∧
    (∀ k : Nat,
      (∀ j : Nat, 1 ≤ j → j ≤ k → F64.elapsedAfter 0 (deltas.take j) < f64 0.7) →
      (F64.runFrames (deltas.take k) s).cameraTransition =
        some { tr with elapsed := F64.elapsedAfter 0 (deltas.take k) }) := by
  have _ := hfin
  have _ := hacc
  constructor
  · intro h
    exact runFrames64_finishes deltas s tr hs hd (by rw [h0]; exact h)
  · intro k hk
    have h := runFrames64_running (deltas.take k) s tr hs hd (by
      intro j hj1 hj2
      rw [h0, List.take_take]
      have hjk : j ≤ k := le_trans hj2 (by simp)
      rw [min_eq_left hjk]
      exact hk j hj1 hjk)
    rw [h, h0]

/-- The elapsed time that three frames of a quarter of a second accumulate. -/
theorem quarterFrames_elapsed :
    F64.elapsedAfter 0 [1 / 4] = 1 / 4 ∧ F64.elapsedAfter 0 [1 / 4, 1 / 4] = 1 / 2 ∧
    F64.elapsedAfter 0 [1 / 4, 1 / 4, 1 / 4] = 3 / 4 := by
  have q1 : f64 (0 + 1 / 4) = 1 / 4 := by
    rw [f64_of_near_pos (0 + 1 / 4) (-2) 4503599627370496 (by norm_num) (by norm_num)
      (by norm_num) (by norm_num [abs_lt])]
    norm_num
  have q2 : f64 (1 / 4 + 1 / 4) = 1 / 2 := by
    rw [f64_of_near_pos (1 / 4 + 1 / 4) (-1) 4503599627370496 (by norm_num) (by norm_num)
      (by norm_num) (by norm_num [abs_lt])]
    norm_num
  have q3 : f64 (1 / 2 + 1 / 4) = 3 / 4 := by
    rw [f64_of_near_pos (1 / 2 + 1 / 4) (-1) 6755399441055744 (by norm_num) (by norm_num)
      (by norm_num) (by norm_num [abs_lt])]
    norm_num
  refine ⟨?_, ?_, ?_⟩
  · show f64 (0 + 1 / 4) = _
    rw [q1]
  · show f64 (f64 (0 + 1 / 4) + 1 / 4) = _
    rw [q1, q2]
  · show f64 (f64 (f64 (0 + 1 / 4) + 1 / 4) + 1 / 4) = _
    rw [q1, q2, q3]

/-- C3 on `sampleTransition64` with three frames of a quarter of a second: the
accumulated elapsed time is 1/4, 1/2 and 3/4, so the transition is still there
after two frames and cleared after the third, with the camera at the
destination, the double `0.3` on the x axis, which the interpolation formula
at progress 1 would miss. -/
theorem transition64_completes_witness :
    (F64.runFrames [1 / 4, 1 / 4, 1 / 4] sampleAnimating64).cameraTransition = none ∧
    (F64.runFrames [1 / 4, 1 / 4, 1 / 4] sampleAnimating64).camera.position =
      ⟨f64 0.3, 0, 4⟩ ∧
    (F64.runFrames [1 / 4, 1 / 4, 1 / 4] sampleAnimating64).controlsTarget = ⟨6, 0, 8⟩ ∧
    (F64.runFrames [1 / 4, 1 / 4] sampleAnimating64).cameraTransition =
      some { sampleTransition64 with elapsed := 1 / 2 } ∧
    F64.lerp 1 (f64 0.3) 1 ≠ f64 0.3 := by
  obtain ⟨e1, e2, e3⟩ := quarterFrames_elapsed
  have hfin : ∀ d ∈ ([1 / 4, 1 / 4, 1 / 4] : List ℚ), InRange d := by
    intro d hd
    simp only [List.mem_cons, List.mem_singleton, List.not_mem_nil, or_false, or_self] at hd
    rw [hd]
    exact inRange_of_abs_le_one _ (by rw [abs_of_pos (by norm_num)]; norm_num)
  have hacc : ∀ j : Nat,
      InRange (F64.elapsedAfter 0 (([1 / 4, 1 / 4, 1 / 4] : List ℚ).take j)) := by
    intro j
    apply inRange_of_abs_le_one
    rcases j with _ | _ | _ | j
    · rw [List.take_zero, show F64.elapsedAfter 0 [] = 0 from rfl]
      norm_num
    · simp only [List.take_succ_cons, List.take_zero]
      rw [e1, abs_of_pos (by norm_num)]; norm_num
    · simp only [List.take_succ_cons, List.take_zero]
      rw [e2, abs_of_pos (by norm_num)]; norm_num
    · simp only [List.take_succ_cons, List.take_nil]
      rw [e3, abs_of_pos (by norm_num)]; norm_num
  have h := transition64_completes sampleAnimating64 sampleTransition64 [1 / 4, 1 / 4, 1 / 4]
    rfl rfl rfl hfin hacc
  have h₁ := h.1 ⟨3, by norm_num, by simp, by
    simp only [List.take_succ_cons, List.take_zero]
    rw [e3, f64_seven_tenths]; norm_num⟩
  have h₂ := h.2 2 (by
    intro j hj1 hj2
    have hj : j = 1 ∨ j = 2 := by omega
    rcases hj with rfl | rfl
    · simp only [List.take_succ_cons, List.take_zero]
      rw [e1, f64_seven_tenths]; norm_num
    · simp only [List.take_succ_cons, List.take_zero]
      rw [e2, f64_seven_tenths]; norm_num)
  simp only [List.take_succ_cons, List.take_zero] at h₂
  refine ⟨h₁.1, h₁.2.1, h₁.2.2, ?_, lerp64_at_one.2.2⟩
  rw [h₂, e2]

/-- C3 fails as stated. The five `roundingFrames` sum to at least 7/10, yet the
elapsed time they accumulate in double arithmetic is one spacing below the
double `0.7` and the transition is still there after them. And the frames
`[3/4, -1/2]` sum to 1/4, below 0.7, yet the transition is gone after them,
cleared by the first. -/
theorem transition64_sum_counterexample :
    (0.7 : ℚ) ≤ roundingFrames.sum ∧
    (F64.runFrames roundingFrames sampleAnimating64).cameraTransition =
      some { sampleTransition64 with elapsed := 6305039478318693 / 2 ^ 53 } ∧
    ([3 / 4, -(1 / 2)] : List ℚ).sum < 0.7 ∧
    (F64.runFrames [3 / 4, -(1 / 2)] sampleAnimating64).cameraTransition = none := by
  obtain ⟨r1, r2, r3, r4, r5⟩ := roundingFrames_elapsed
  refine ⟨roundingFrames_sum, ?_, by norm_num, ?_⟩
  · have h := runFrames64_running roundingFrames sampleAnimating64 sampleTransition64 rfl rfl
      (by
        intro j hj1 hj2
        have hlen : roundingFrames.length = 5 := rfl
        rw [hlen] at hj2
        rw [show sampleTransition64.elapsed = 0 from rfl]
        have hj : j = 1 ∨ j = 2 ∨ j = 3 ∨ j = 4 ∨ j = 5 := by omega
        rcases hj with rfl | rfl | rfl | rfl | rfl
        · rw [r1, f64_seven_tenths]; norm_num
        · rw [r2, f64_seven_tenths]; norm_num
        · rw [r3, f64_seven_tenths]; norm_num
        · rw [r4, f64_seven_tenths]; norm_num
        · rw [r5, f64_seven_tenths]; norm_num)
    have h5 : F64.elapsedAfter sampleTransition64.elapsed roundingFrames =
        6305039478318693 / 2 ^ 53 := r5
    rw [h, h5]
  · have p1 : f64 (0 + 3 / 4) = 3 / 4 := by
      rw [f64_of_near_pos (0 + 3 / 4) (-1) 6755399441055744 (by norm_num) (by norm_num)
        (by norm_num) (by norm_num [abs_lt])]
      norm_num
    have hf := transitionStep64_finishing sampleAnimating64 sampleTransition64 (3 / 4) rfl rfl
      (by
        show f64 0.7 ≤ f64 (0 + 3 / 4)
        rw [p1, f64_seven_tenths]; norm_num)
    show (F64.runFrames [-(1 / 2)] (F64.transitionStep (3 / 4) sampleAnimating64)).cameraTransition
      = none
    rw [runFrames64_idle _ _ hf.1]
    exact hf.1


/-! ## Coordinate conversion in double arithmetic -/

/-- A double is the multiple of the spacing of its binade that rounding picks. -/
theorem div_spacing_of_double (x : ℚ) (hx : f64 x = x) :
    x / 2 ^ (binade x - 52) = roundHalfEven (x / 2 ^ (binade x - 52)) := by
  have hu : (2 : ℚ) ^ (binade x - 52) ≠ 0 := (two_zpow_pos _).ne'
  unfold f64 at hx
  rw [div_eq_iff hu]
  exact hx.symm

/-- Doubling a double is exact (overflow aside). -/
theorem f64_mul_two (x : ℚ) (hx : f64 x = x) : f64 (x * 2) = x * 2 := by
  by_cases h0 : x = 0
  · rw [h0, zero_mul, f64_zero]
  have hpos : (0 : ℚ) < |x| := abs_pos.mpr h0
  have hn := div_spacing_of_double x hx
  have habs : |x * 2| = |x| * 2 := by rw [abs_mul]; norm_num
  have hup := abs_lt_two_zpow_binade x
  by_cases hlog : -1022 ≤ Int.log 2 |x|
  · have hb : binade x = Int.log 2 |x| := by
      unfold binade; rw [if_neg h0]; exact max_eq_left hlog
    have hlow : (2 : ℚ) ^ binade x ≤ |x| := by
      rw [hb]
      simpa using Int.zpow_log_le_self (b := 2) (r := |x|) (by norm_num) hpos
    have hb2 : binade (x * 2) = binade x + 1 := by
      apply binade_eq
      · rw [habs, zpow_add_one₀ (by norm_num)]; linarith
      · rw [habs, zpow_add_one₀ (by norm_num : (2 : ℚ) ≠ 0) (binade x + 1)]; linarith
      · have := binade_ge x; omega
    have hu : (2 : ℚ) ^ (binade x + 1 - 52) = 2 ^ (binade x - 52) * 2 := by
      rw [show binade x + 1 - 52 = (binade x - 52) + 1 by ring, zpow_add_one₀ (by norm_num)]
    have hq : x * 2 / (2 ^ (binade x - 52) * 2) = x / 2 ^ (binade x - 52) := by
      rw [mul_div_mul_right _ _ (by norm_num : (2 : ℚ) ≠ 0)]
    have hv : f64 (x * 2) = roundHalfEven (x / 2 ^ (binade x - 52)) * (2 ^ (binade x - 52) * 2) := by
      unfold f64
      rw [hb2, hu, hq]
    rw [hv, ← mul_assoc]
    congr 1
  · have hlt : Int.log 2 |x| < -1022 := not_le.mp hlog
    have hb : binade x = -1022 := by
      unfold binade; rw [if_neg h0]; exact max_eq_right hlt.le
    have hsmall : |x| < 2 ^ (-1022 : ℤ) := by
      have h1 := Int.lt_zpow_succ_log_self (b := 2) (by norm_num) |x|
      have h1' : |x| < (2 : ℚ) ^ (Int.log 2 |x| + 1) := by simpa using h1
      exact lt_of_lt_of_le h1' (two_zpow_mono (by omega))
    have hb2 : binade (x * 2) = -1022 := by
      rcases lt_or_le (|x * 2|) (2 ^ (-1022 : ℤ)) with hs | hs
      · exact binade_subnormal _ hs
      · apply binade_eq _ _ hs _ (le_refl _)
        rw [habs, show (-1022 : ℤ) + 1 = -1022 + 1 from rfl, zpow_add_one₀ (by norm_num)]
        linarith
    rw [hb] at hn
    have hu : (2 : ℚ) ^ ((-1022 : ℤ) - 52) ≠ 0 := (two_zpow_pos _).ne'
    unfold f64
    rw [hb2]
    generalize (2 : ℚ) ^ ((-1022 : ℤ) - 52) = u at hn hu ⊢
    have hq : x * 2 / u = ((2 * roundHalfEven (x / u) : ℤ) : ℚ) := by
      rw [Int.cast_mul, ← hn]
      push_cast
      ring
    rw [hq, roundHalfEven_intCast, ← hq]
    field_simp

/-- The literal `0.05` denotes the double `3602879701896397 / 2⁵⁶`, which is
above 1/20. -/
theorem f64_offset : f64 0.05 = 3602879701896397 / 2 ^ 56 := by
  rw [f64_of_near_pos 0.05 (-5) 7205759403792794 (by norm_num) (by norm_num) (by norm_num)
    (by norm_num [abs_lt])]
  norm_num

/-- The inverse mapping applied to the computed mesh of one record: location,
rotation and the first two scale entries come back exactly, the third within
`2^(k - 51)` when its magnitude is at most `2^k`. -/
theorem blenderOfMesh_createHighlightBox64 (b : BoxRecord) (hb : DoubleScale b) :
    (blenderOfMesh (F64.createHighlightBox b)).1 = b.location ∧
    (blenderOfMesh (F64.createHighlightBox b)).2.2 = b.rotation ∧
    (blenderOfMesh (F64.createHighlightBox b)).2.1 0 = b.scale 0 ∧
    (blenderOfMesh (F64.createHighlightBox b)).2.1 1 = b.scale 1 ∧
    ∀ k : ℤ, -4 ≤ k → |b.scale 2| ≤ 2 ^ k →
      |(blenderOfMesh (F64.createHighlightBox b)).2.1 2 - b.scale 2| ≤ 2 ^ (k - 51) := by
  refine ⟨?_, ?_, ?_, ?_, ?_⟩
  · funext i
    fin_cases i <;> simp [blenderOfMesh, F64.createHighlightBox]
  · funext i
    fin_cases i <;> simp [blenderOfMesh, F64.createHighlightBox]
  · show f64 (b.scale 0 * 2) / 2 = b.scale 0
    rw [f64_mul_two _ (hb 0).1]
    ring
  · show f64 (b.scale 1 * 2) / 2 = b.scale 1
    rw [f64_mul_two _ (hb 1).1]
    ring
  · intro k hk hz
    show |(f64 (f64 (b.scale 2 * 2) + f64 0.05) - 0.05) / 2 - b.scale 2| ≤ 2 ^ (k - 51)
    rw [f64_mul_two _ (hb 2).1, f64_offset]
    have h16 : (1 : ℚ) / 16 ≤ 2 ^ k := by
      have := two_zpow_mono hk
      norm_num at this
      linarith
    have hk2 : (2 : ℚ) ^ (k + 2) = 2 ^ k * 4 := by
      rw [zpow_add₀ (by norm_num)]; norm_num
    have hk51 : (2 : ℚ) ^ (k - 51) = 2 ^ k / 2 ^ 51 := by
      rw [zpow_sub₀ (by norm_num)]; norm_num
    have hk53 : (2 : ℚ) ^ (k + 2 - 53) = 2 ^ k / 2 ^ 51 := by
      rw [show k + 2 - 53 = k - 51 by ring, hk51]
    have hz' := abs_le.mp hz
    have hx : |b.scale 2 * 2 + 3602879701896397 / 2 ^ 56| ≤ 2 ^ (k + 2) := by
      rw [hk2, abs_le]
      constructor <;> linarith [hz'.1, hz'.2]
    have herr := abs_le.mp (f64_err_of_le _ (k + 2) hx (by omega))
    rw [hk53] at herr
    rw [hk51, abs_le]
    generalize (2 : ℚ) ^ k = u at h16 herr ⊢
    generalize f64 (b.scale 2 * 2 + 3602879701896397 / 2 ^ 56) = v at herr ⊢
    constructor <;> linarith [herr.1, herr.2]

/-- C8, as the code has it: the inverse mapping returns the location, the
rotation and the first two scale entries of every box record whose scale
entries are doubles in range, and the third scale entry within `2^(k - 51)`
when its magnitude is at most `2^k` (for `k` from -4 on); hence two such records
with the same computed mesh agree in location, rotation and the first two scale
entries, and their third scale entries differ by at most `2^(k - 50)`. -/
theorem createHighlightBox64_reversible :
    (∀ b : BoxRecord, DoubleScale b →
      (blenderOfMesh (F64.createHighlightBox b)).1 = b.location ∧
      (blenderOfMesh (F64.createHighlightBox b)).2.2 = b.rotation ∧
      (blenderOfMesh (F64.createHighlightBox b)).2.1 0 = b.scale 0 ∧
      (blenderOfMesh (F64.createHighlightBox b)).2.1 1 = b.scale 1 ∧
      ∀ k : ℤ, -4 ≤ k → |b.scale 2| ≤ 2 ^ k →
        |(blenderOfMesh (F64.createHighlightBox b)).2.1 2 - b.scale 2| ≤ 2 ^ (k - 51)) ∧
    (∀ b₁ b₂ : BoxRecord, DoubleScale b₁ → DoubleScale b₂ →
      F64.createHighlightBox b₁ = F64.createHighlightBox b₂ →
      b₁.location = b₂.location ∧ b₁.rotation = b₂.rotation ∧
      b₁.scale 0 = b₂.scale 0 ∧ b₁.scale 1 = b₂.scale 1 ∧
      ∀ k : ℤ, -4 ≤ k → |b₁.scale 2| ≤ 2 ^ k → |b₂.scale 2| ≤ 2 ^ k →
        |b₁.scale 2 - b₂.scale 2| ≤ 2 ^ (k - 50)) := by
  refine ⟨blenderOfMesh_createHighlightBox64, ?_⟩
  intro b₁ b₂ h₁ h₂ h
  obtain ⟨l₁, r₁, x₁, y₁, z₁⟩ := blenderOfMesh_createHighlightBox64 b₁ h₁
  obtain ⟨l₂, r₂, x₂, y₂, z₂⟩ := blenderOfMesh_createHighlightBox64 b₂ h₂
  rw [h] at l₁ r₁ x₁ y₁ z₁
  refine ⟨l₁.symm.trans l₂, r₁.symm.trans r₂, x₁.symm.trans x₂, y₁.symm.trans y₂, ?_⟩
  intro k hk hz₁ hz₂
  have e₁ := abs_le.mp (z₁ k hk hz₁)
  have e₂ := abs_le.mp (z₂ k hk hz₂)
  have hk50 : (2 : ℚ) ^ (k - 50) = 2 ^ (k - 51) * 2 := by
    rw [show k - 50 = (k - 51) + 1 by ring, zpow_add_one₀ (by norm_num)]
  rw [hk50, abs_le]
  constructor <;> linarith [e₁.1, e₁.2, e₂.1, e₂.2]

/-- The entries of the two sample records. -/
theorem flatBox_thinBox_entries :
    flatBox.scale 0 = 1 ∧ flatBox.scale 1 = 1 ∧ flatBox.scale 2 = 0 ∧
    thinBox.scale 0 = 1 ∧ thinBox.scale 1 = 1 ∧ thinBox.scale 2 = 1 / 2 ^ 70 ∧
    flatBox.location = thinBox.location ∧ flatBox.rotation = thinBox.rotation :=
  ⟨rfl, rfl, rfl, rfl, rfl, rfl, rfl, rfl⟩

/-- The scale entries 1, 0 and `2⁻⁷⁰` are doubles in range. -/
theorem flatBox_thinBox_doubles : DoubleScale flatBox ∧ DoubleScale thinBox := by
  obtain ⟨a0, a1, a2, b0, b1, b2, _, _⟩ := flatBox_thinBox_entries
  have h70 : f64 (1 / 2 ^ 70) = 1 / 2 ^ 70 :=
    f64_of_exact_pos _ (-70) (2 ^ 52) (by norm_num) (by norm_num) (by norm_num) (by norm_num)
  have r1 : InRange 1 := inRange_of_abs_le_one _ (by norm_num)
  have r0 : InRange 0 := inRange_of_abs_le_one _ (by norm_num)
  have r70 : InRange (1 / 2 ^ 70) := inRange_of_abs_le_one _ (by
    rw [abs_of_pos (by positivity)]; norm_num)
  constructor
  · intro i
    fin_cases i
    · show f64 (flatBox.scale 0) = flatBox.scale 0 ∧ InRange (flatBox.scale 0)
      rw [a0]; exact ⟨f64_one, r1⟩
    · show f64 (flatBox.scale 1) = flatBox.scale 1 ∧ InRange (flatBox.scale 1)
      rw [a1]; exact ⟨f64_one, r1⟩
    · show f64 (flatBox.scale 2) = flatBox.scale 2 ∧ InRange (flatBox.scale 2)
      rw [a2]; exact ⟨f64_zero, r0⟩
  · intro i
    fin_cases i
    · show f64 (thinBox.scale 0) = thinBox.scale 0 ∧ InRange (thinBox.scale 0)
      rw [b0]; exact ⟨f64_one, r1⟩
    · show f64 (thinBox.scale 1) = thinBox.scale 1 ∧ InRange (thinBox.scale 1)
      rw [b1]; exact ⟨f64_one, r1⟩
    · show f64 (thinBox.scale 2) = thinBox.scale 2 ∧ InRange (thinBox.scale 2)
      rw [b2]; exact ⟨h70, r70⟩

/-- The computed mesh, field by field. -/
theorem createHighlightBox64_fields (b : BoxRecord) :
    F64.createHighlightBox b =
      { scale := ⟨f64 (b.scale 0 * 2), f64 (f64 (b.scale 2 * 2) + f64 0.05),
          f64 (b.scale 1 * 2)⟩
        position := ⟨b.location 0, b.location 2, -b.location 1⟩
        rotation := ⟨b.rotation 0, b.rotation 2, b.rotation 1⟩ } := rfl

/-- C8 fails as stated: the records `flatBox` and `thinBox`, whose third scale
entries are the doubles 0 and `2⁻⁷⁰`, get the same mesh, the sum `2 * sz + 0.05`
rounding to the double `0.05` for both. -/
theorem createHighlightBox64_not_injective :
    DoubleScale flatBox ∧ DoubleScale thinBox ∧
    F64.createHighlightBox flatBox = F64.createHighlightBox thinBox ∧
    flatBox.scale 2 ≠ thinBox.scale 2 := by
  obtain ⟨a0, a1, a2, b0, b1, b2, hl, hr⟩ := flatBox_thinBox_entries
  have y0 : f64 ((0 : ℚ) * 2) = 0 := by rw [zero_mul, f64_zero]
  have y70 : f64 ((1 : ℚ) / 2 ^ 70 * 2) = 1 / 2 ^ 69 := by
    rw [f64_of_exact_pos ((1 : ℚ) / 2 ^ 70 * 2) (-69) (2 ^ 52) (by norm_num) (by norm_num)
      (by norm_num) (by norm_num)]
    norm_num
  have y1 : f64 (0 + (3602879701896397 / 2 ^ 56)) = (3602879701896397 / 2 ^ 56) := by
    rw [f64_of_near_pos (0 + (3602879701896397 / 2 ^ 56)) (-5) 7205759403792794 (by norm_num)
      (by norm_num) (by norm_num) (by norm_num [abs_lt])]
    norm_num
  have y2 : f64 (1 / 2 ^ 69 + (3602879701896397 / 2 ^ 56)) = (3602879701896397 / 2 ^ 56) := by
    rw [f64_of_near_pos (1 / 2 ^ 69 + (3602879701896397 / 2 ^ 56)) (-5) 7205759403792794
      (by norm_num) (by norm_num) (by norm_num) (by norm_num [abs_lt])]
    norm_num
  refine ⟨flatBox_thinBox_doubles.1, flatBox_thinBox_doubles.2, ?_, ?_⟩
  · rw [createHighlightBox64_fields flatBox, createHighlightBox64_fields thinBox,
      a0, a1, a2, b0, b1, b2, hl, hr, y0, y70, f64_offset, y1, y2]
  · rw [a2, b2]
    norm_num


end KammerlFinder
